import Mathlib

/-!
# binscout: search a file for a byte sequence

A shallow embedding of `binscout.c` and the properties of its needle compiler,
jump table, overlap analysis and scan loop.

Conventions of the embedding.

* A byte (`unsigned char`, and a `char` of a C string read as its byte code) is a
  `Fin 256`.
* `struct bytevec` keeps its two fields apart: `len` is the stored length and
  `vec` the bytes behind it; `crawl` overwrites `len` while `vec` stays.
* A mapped file is the list of its bytes; its `size` is the length of the list.
* A C string is the list of its characters before the terminating NUL.
* `unsigned int` / `size_t` counters are natural numbers.  Pattern lengths are
  command-line arguments and file sizes are sizes of mappings, far below `2^31`
  and `2^63`; where wrap-around decides the outcome (the subtraction in `overlap`
  when `len = 0`, the conversion of a negative number to `uint64_t` in
  `compile_int`) the `% 2^32` or `% 2^64` is explicit.
* `strtoull` and `strtoll` are the C library's; they are written out as the C
  standard describes them for base 0, as far as their value goes.
* A `for`/`while` loop whose trip count is known on entry is a recursion on the
  number of iterations left; the unbounded `while` of `crawl` takes fuel and
  reports when it runs out.
-/

namespace Binscout

set_option maxRecDepth 100000

/-- One byte. -/
abbrev Byte := Fin 256

/-- The constant `NUMBYTES`. -/
def NUMBYTES : Nat := 256

/-- Byte vector: `struct bytevec { unsigned int len; unsigned char vec[]; }`. -/
structure bytevec where
  len : Nat
  vec : List Byte
deriving DecidableEq

/-- What a call hands back: a value, the `NULL` pointer, or no return at all
because an `assert` stopped the process. -/
inductive Ret (α : Type) where
  | val (a : α)
  | null
  | abort
deriving DecidableEq

/-! ## Jump table -/

/-- The second loop of `generate_jump_table`, `k` iterations left, at index `j`:
`if (jmptbl[vec[j]] == len) jmptbl[vec[j]] = j + 1`. -/
def jump_fill (len : Nat) (vec : List Byte) : Nat → Nat → (Byte → Nat) → (Byte → Nat)
  | 0, _, tbl => tbl
  | k + 1, j, tbl =>
    let b := vec.getD j 0
    jump_fill len vec k (j + 1)
      (if tbl b = len then (fun x => if x = b then j + 1 else tbl x) else tbl)

/-- `generate_jump_table`: all 256 entries start as `len`, then the pattern is
walked from index 0 to `len - 1`. -/
def generate_jump_table (bv : bytevec) : Byte → Nat :=
  jump_fill bv.len bv.vec bv.len 0 (fun _ => bv.len)

/-! ## Overlap -/

/-- `memcmp(a, b, n) == 0` on two byte sequences. -/
def memcmp_eq (a b : List Byte) (n : Nat) : Bool :=
  a.take n == b.take n

/-- The `for (i = 1; i < len; i++)` loop of `overlap` with `k` iterations left at
index `i`; the value is `i` when the loop is left (by `break` or by its test). -/
def overlap_scan (len : Nat) (vec : List Byte) : Nat → Nat → Nat
  | 0, i => i
  | k + 1, i =>
    if vec.getD 0 0 = vec.getD i 0 ∧ memcmp_eq vec (vec.drop i) (len - i) = true then i
    else overlap_scan len vec k (i + 1)

/-- `overlap`; `none` is the failed `assert(extent < bvec->len)`. The difference
`bvec->len - i` is taken in `unsigned int`. -/
def overlap (bv : bytevec) : Option Nat :=
  if bv.len = 1 then some 0
  else
    let i := overlap_scan bv.len bv.vec (bv.len - 1) 1
    let extent := (bv.len + 2 ^ 32 - i) % 2 ^ 32
    if extent < bv.len then some (if extent ≠ 0 then extent else bv.len) else none

/-! ## Scan -/

/-- How the inner `for (j = 0; j < len; j++)` loop of `crawl` ends. -/
inductive Cmp where
  /-- the loop ran to `j == len` -/
  | full
  /-- `break` at index `j`, where the pattern byte is `p` -/
  | differ (j : Nat) (p : Byte)
  /-- a read outside the pattern bytes or outside the file -/
  | outside
deriving DecidableEq

/-- The inner comparison loop of `crawl`, `k` iterations left at index `j`;
`base` is `off - len`. -/
def crawl_compare (vec src : List Byte) (base : Nat) : Nat → Nat → Cmp
  | 0, _ => Cmp.full
  | k + 1, j =>
    match vec[j]?, src[base + j]? with
    | some p, some s => if p ≠ s then Cmp.differ j p else crawl_compare vec src base k (j + 1)
    | _, _ => Cmp.outside

/-- How a run of `crawl` ends. -/
inductive Run where
  /-- the `while` loop was left; the offsets printed, in order -/
  | done (out : List Nat)
  /-- a failed `assert` or a read out of bounds -/
  | fault
  /-- fuel ran out with `off < size`; the offsets printed so far -/
  | running (off : Nat) (out : List Nat)
deriving DecidableEq

/-- The `while (off < mmf->size)` loop of `crawl`. `len` is the overwritten
`bvec->len`; `off` starts at `len` and never decreases, so `off - len` does not
wrap. On a mismatch the table is read at the pattern byte `bvec->vec[j]`. -/
def crawl_loop (jmptbl : Byte → Nat) (vec src : List Byte) (len match_jump : Nat) :
    Nat → Nat → List Nat → Run
  | 0, off, out => if off < src.length then Run.running off out else Run.done out
  | fuel + 1, off, out =>
    if off < src.length then
      match crawl_compare vec src (off - len) len 0 with
      | Cmp.differ _ p => crawl_loop jmptbl vec src len match_jump fuel (off + jmptbl p) out
      | Cmp.full =>
        crawl_loop jmptbl vec src len match_jump fuel (off + match_jump) (out ++ [off - len])
      | Cmp.outside => Run.fault
    else Run.done out

/-- `crawl`, with `fuel` bounding the iterations of its `while` loop. The table
is built from the vector as compiled, then `len` and `match_jump` both become the
overlap. The `madvise` call only warns and is left out; a printed line is the
offset it shows. -/
def crawl (fuel : Nat) (bvec : bytevec) (src : List Byte) : Run :=
  if bvec.len = 0 ∨ src.length = 0 then Run.fault
  else
    let jmptbl := generate_jump_table bvec
    match overlap bvec with
    | none => Run.fault
    | some ov => crawl_loop jmptbl bvec.vec src ov ov fuel ov []

/-! ## Text needles -/

/-- `enum nul_handling`. -/
inductive nul_handling where
  | DROP_NUL
  | KEEP_NUL
deriving DecidableEq

/-- `compile_str`: `text` is the C string without its terminator, which
`KEEP_NUL` copies along. -/
def compile_str (text : List Byte) (handling : nul_handling) : bytevec :=
  let len := if handling = nul_handling.DROP_NUL then text.length else text.length + 1
  { len := len, vec := (text ++ [0]).take len }

/-! ## Hex needles -/

/-- `isxdigit` in the C locale: `0-9`, `A-F`, `a-f`. -/
def isxdigit (c : Byte) : Bool :=
  (48 ≤ c.val && c.val ≤ 57) || (65 ≤ c.val && c.val ≤ 70) || (97 ≤ c.val && c.val ≤ 102)

/-- The array `hex_table`, by index; an index without an initialiser holds 0.
The array ends at index `'f'`; `compile_hex` reads it only at hex digits. -/
def hex_table : Nat → Nat
  | 48 => 0
  | 49 => 1
  | 50 => 2
  | 51 => 3
  | 52 => 4
  | 53 => 5
  | 54 => 6
  | 55 => 7
  | 56 => 8
  | 57 => 9
  | 97 => 10
  | 65 => 10
  | 98 => 11
  | 66 => 11
  | 99 => 12
  | 67 => 12
  | 100 => 13
  | 68 => 13
  | 101 => 14
  | 69 => 14
  | 102 => 15
  | 70 => 15
  | _ => 0

/-- The expression `HEXVAL(digit)`. -/
def HEXVAL (digit : Byte) : Nat := hex_table digit.val

/-- The statement `vec[ncnt / 2] |= HEXVAL(c) * (((ncnt & 1) == 0) ? 16U : 1U)`:
the new value of the byte `old`. -/
def or_nybble (old : Byte) (c : Byte) (ncnt : Nat) : Byte :=
  Fin.ofNat (old.val ||| (HEXVAL c * (if ncnt % 2 = 0 then 16 else 1)))

/-- The `while (ncnt < 2 * binlen)` loop of `compile_hex` with `k` iterations
left; `str` is the rest of the C string (`*str` is its head, or the terminating
NUL when nothing is left), `none` is the `return NULL`. -/
def compile_hex_loop : Nat → List Byte → Nat → List Byte → Option (List Byte)
  | 0, _, _, vec => some vec
  | k + 1, str, ncnt, vec =>
    if isxdigit (str.headD 0) = true then
      compile_hex_loop k str.tail (ncnt + 1)
        (vec.set (ncnt / 2) (or_nybble (vec.getD (ncnt / 2) 0) (str.headD 0) ncnt))
    else none

/-- `compile_hex(str, len)`. -/
def compile_hex (str : List Byte) (len : Nat) : Ret bytevec :=
  if len = 0 then Ret.abort
  else
    let binlen := (len + 1) / 2
    let ncnt := if len % 2 = 1 then 1 else 0
    match compile_hex_loop (2 * binlen - ncnt) str ncnt (List.replicate binlen 0) with
    | none => Ret.null
    | some vec => Ret.val { len := binlen, vec := vec }

/-! ## Integer needles -/

/-- `enum endian`. -/
inductive endian where
  | ENDIAN_LITTLE
  | ENDIAN_BIG
deriving DecidableEq

/-- The loop of `revmem`, at most `k` iterations: while `b < e` the bytes at `b`
and `e` change places (through `tmp`), `b` goes up and `e` down. -/
def revmem_loop : Nat → Nat → Nat → List Byte → List Byte
  | 0, _, _, buf => buf
  | k + 1, b, e, buf =>
    if b < e then
      revmem_loop k (b + 1) (e - 1) ((buf.set b (buf.getD e 0)).set e (buf.getD b 0))
    else buf

/-- `revmem(buf, sz)`: `b = 0`, `e = sz - 1`. For `sz = 0` the C code has
`e = -1` and here `e = 0`; the loop does not run in either case. -/
def revmem (buf : List Byte) (sz : Nat) : List Byte :=
  revmem_loop sz 0 (sz - 1) buf

/-- The loop of `decompose_int`, `k` iterations left at index `i`:
`vec[i] = val >> (i * 8)`, cut to a byte. -/
def decompose_fill (val : Nat) : Nat → Nat → List Byte → List Byte
  | 0, _, vec => vec
  | k + 1, i, vec => decompose_fill val k (i + 1) (vec.set i (Fin.ofNat (val >>> (i * 8))))

/-- `decompose_int(val, sz, en)`; the callers pass `sz` 2, 4 or 8. -/
def decompose_int (val : Nat) (sz : Nat) (en : endian) : bytevec :=
  let vec := decompose_fill val sz 0 (List.replicate sz 0)
  { len := sz, vec := if en = endian.ENDIAN_BIG then revmem vec sz else vec }

/-- `isspace` in the C locale. -/
def isspace (c : Byte) : Bool :=
  c.val = 32 || (9 ≤ c.val && c.val ≤ 13)

/-- The value of a character as a digit, 36 when it is none. -/
def digit_of (c : Byte) : Nat :=
  if 48 ≤ c.val ∧ c.val ≤ 57 then c.val - 48
  else if 97 ≤ c.val ∧ c.val ≤ 122 then c.val - 87
  else if 65 ≤ c.val ∧ c.val ≤ 90 then c.val - 55
  else 36

/-- The longest run of digits of `base` at the head of a string: the number they
write, after `acc`, and how many there are, after `n`. -/
def scan_digits (base : Nat) : List Byte → Nat → Nat → Nat × Nat
  | [], acc, n => (acc, n)
  | c :: rest, acc, n =>
    if digit_of c < base then scan_digits base rest (acc * base + digit_of c) (n + 1)
    else (acc, n)

/-- What the C library reads off the head of a string as an integer literal in
base 0: the sign, the number written and how many digits were consumed. -/
structure numeral where
  negative : Bool
  magnitude : Nat
  digits : Nat
deriving DecidableEq

/-- The subject sequence of `strtoull`/`strtoll` with base 0, as the C standard
describes it: white space, an optional sign, then `0x`/`0X` and hex digits, or
`0` and octal digits, or decimal digits. -/
def parse_numeral (text : List Byte) : numeral :=
  let s := text.dropWhile isspace
  let s1 := if s.head? = some 45 ∨ s.head? = some 43 then s.tail else s
  let r :=
    if s1.head? = some 48 ∧ (s1.tail.head? = some 120 ∨ s1.tail.head? = some 88) ∧
        digit_of (s1.tail.tail.headD 0) < 16 then
      scan_digits 16 s1.tail.tail 0 0
    else if s1.head? = some 48 then scan_digits 8 s1 0 0
    else scan_digits 10 s1 0 0
  { negative := decide (s.head? = some 45), magnitude := r.1, digits := r.2 }

/-- The C library's `strtoull(text, &end, 0)`, its value: 0 when no digits are
consumed, `ULLONG_MAX` out of range, negated in 64 bits after a minus sign. -/
def strtoull (text : List Byte) : Nat :=
  let n := parse_numeral text
  if 2 ^ 64 ≤ n.magnitude then 2 ^ 64 - 1
  else if n.negative = true then (2 ^ 64 - n.magnitude) % 2 ^ 64
  else n.magnitude

/-- The C library's `strtoll(text, &end, 0)`, its value: 0 when no digits are
consumed, `LLONG_MIN` or `LLONG_MAX` out of range. -/
def strtoll (text : List Byte) : Int :=
  let n := parse_numeral text
  if n.negative = true then
    (if 2 ^ 63 < n.magnitude then -(2 ^ 63 : Int) else -(n.magnitude : Int))
  else (if 2 ^ 63 ≤ n.magnitude then (2 ^ 63 - 1 : Int) else (n.magnitude : Int))

/-- `compile_int(text, sz, en)`; `text[0]` of the empty string is the NUL. The
pointer `end` is set by the library and not read. -/
def compile_int (text : List Byte) (sz : Nat) (en : endian) : bytevec :=
  if text.head? = some 45 then
    decompose_int ((strtoll text) % (2 ^ 64 : Int)).toNat sz en
  else decompose_int (strtoull text) sz en

/-! ## Needle types -/

/-- `enum needle_t`. -/
inductive needle_t where
  | NEEDLE_HEX
  | NEEDLE_STR
  | NEEDLE_CSTR
  | NEEDLE_LE16
  | NEEDLE_LE32
  | NEEDLE_LE64
  | NEEDLE_BE16
  | NEEDLE_BE32
  | NEEDLE_BE64
deriving DecidableEq

/-- The `switch` of `form_needle`. -/
def form_needle_switch (needle_is : needle_t) (text : List Byte) : Ret bytevec :=
  match needle_is with
  | needle_t.NEEDLE_HEX => compile_hex text text.length
  | needle_t.NEEDLE_STR => Ret.val (compile_str text nul_handling.DROP_NUL)
  | needle_t.NEEDLE_CSTR => Ret.val (compile_str text nul_handling.KEEP_NUL)
  | needle_t.NEEDLE_LE16 => Ret.val (compile_int text 2 endian.ENDIAN_LITTLE)
  | needle_t.NEEDLE_LE32 => Ret.val (compile_int text 4 endian.ENDIAN_LITTLE)
  | needle_t.NEEDLE_LE64 => Ret.val (compile_int text 8 endian.ENDIAN_LITTLE)
  | needle_t.NEEDLE_BE16 => Ret.val (compile_int text 2 endian.ENDIAN_BIG)
  | needle_t.NEEDLE_BE32 => Ret.val (compile_int text 4 endian.ENDIAN_BIG)
  | needle_t.NEEDLE_BE64 => Ret.val (compile_int text 8 endian.ENDIAN_BIG)

/-- `form_needle(needle_is, text)`: the `switch`, then `assert(bvec != NULL)`. -/
def form_needle (needle_is : needle_t) (text : List Byte) : Ret bytevec :=
  match form_needle_switch needle_is text with
  | Ret.null => Ret.abort
  | r => r

/-! ## Reference notions used in the statements -/

/-- The lower-case hex digit of a nybble value. -/
def hex_digit_lower (v : Nat) : Byte :=
  if v < 10 then Fin.ofNat (48 + v) else Fin.ofNat (87 + v)

/-- The upper-case hex digit of a nybble value. -/
def hex_digit_upper (v : Nat) : Byte :=
  if v < 10 then Fin.ofNat (48 + v) else Fin.ofNat (55 + v)

/-- Bytes written out as two hex digits each, high nybble first. -/
def hex_encode (digit : Nat → Byte) : List Byte → List Byte
  | [] => []
  | b :: bs => digit (b.val / 16) :: digit (b.val % 16) :: hex_encode digit bs

/-- ASCII `tolower`. -/
def to_lower (c : Byte) : Byte :=
  if 65 ≤ c.val ∧ c.val ≤ 90 then Fin.ofNat (c.val + 32) else c

/-- ASCII `toupper`. -/
def to_upper (c : Byte) : Byte :=
  if 97 ≤ c.val ∧ c.val ≤ 122 then Fin.ofNat (c.val - 32) else c

/-- An occurrence of `pat` in `src` at offset `o`. -/
def occurs_at (pat src : List Byte) (o : Nat) : Prop :=
  o + pat.length ≤ src.length ∧ (src.drop o).take pat.length = pat

instance (pat src : List Byte) (o : Nat) : Decidable (occurs_at pat src o) := by
  unfold occurs_at; infer_instance

/-- The bytes that pairs of digits make: the first digit of a pair is or-ed in as
the high nybble of a zero byte, the second as the low nybble. -/
def hex_pairs : List Byte → List Byte
  | a :: b :: rest => or_nybble (or_nybble 0 a 0) b 1 :: hex_pairs rest
  | _ => []

/-- A digit string with a `0` put in front when its length is odd. -/
def hex_padded (s : List Byte) : List Byte :=
  if s.length % 2 = 1 then 48 :: s else s

/-- The suffix of `pat` from index `i` equals the prefix of the same length. -/
def border_at (pat : List Byte) (i : Nat) : Prop :=
  pat.drop i = pat.take (pat.length - i)

instance (pat : List Byte) (i : Nat) : Decidable (border_at pat i) := by
  unfold border_at; infer_instance

/-- Strictly increasing list of offsets. -/
def strictly_increasing (l : List Nat) : Prop :=
  l.Pairwise (fun a b => a < b)

instance (l : List Nat) : Decidable (strictly_increasing l) := by
  unfold strictly_increasing; infer_instance

/-- The number that bytes write, least significant byte first. -/
def le_value : List Byte → Nat
  | [] => 0
  | b :: bs => b.val + 256 * le_value bs

/-- The offsets a run has printed. -/
def Run.emitted : Run → List Nat
  | Run.done out => out
  | Run.fault => []
  | Run.running _ out => out

/-- What holds of a printed offset `o` when `L` bytes are compared: the window
ends before the last byte of the file, and the first `L` pattern bytes stand at
`o`. -/
def emitted_ok (vec src : List Byte) (L o : Nat) : Prop :=
  o + L < src.length ∧ ∀ k, k < L → ∃ q, vec[k]? = some q ∧ src[o + k]? = some q

/-- What holds of a run of the scan loop with comparison length `L`: no fault,
the cursor of a run still going lies in `[L, size)`, and every printed offset
is as `emitted_ok` says. -/
def run_ok (vec src : List Byte) (L : Nat) : Run → Prop
  | Run.done out => ∀ o ∈ out, emitted_ok vec src L o
  | Run.fault => False
  | Run.running off out => L ≤ off ∧ off < src.length ∧ ∀ o ∈ out, emitted_ok vec src L o

/-! ## The scan loop: fuel -/

theorem crawl_loop_done_mono (jmptbl : Byte → Nat) (vec src : List Byte) (len mj : Nat)
    (k : Nat) : ∀ (fuel off : Nat) (out r : List Nat),
    crawl_loop jmptbl vec src len mj fuel off out = Run.done r →
    crawl_loop jmptbl vec src len mj (fuel + k) off out = Run.done r := by
  intro fuel
  induction fuel with
  | zero =>
    intro off out r h
    by_cases hlt : off < src.length
    · simp [crawl_loop, hlt] at h
    · simp only [crawl_loop, hlt, if_false] at h
      cases k with
      | zero => simp [crawl_loop, hlt, h]
      | succ k => simp [crawl_loop, hlt, h]
  | succ fuel ih =>
    intro off out r h
    have e : fuel + 1 + k = (fuel + k) + 1 := by omega
    rw [e]
    by_cases hlt : off < src.length
    · simp only [crawl_loop, hlt, if_true] at h ⊢
      cases hc : crawl_compare vec src (off - len) len 0 with
      | full => rw [hc] at h; exact ih _ _ _ h
      | differ j p => rw [hc] at h; exact ih _ _ _ h
      | outside => rw [hc] at h; cases h
    · simp only [crawl_loop, hlt, if_false] at h ⊢
      exact h

theorem crawl_done_mono (k fuel : Nat) (bvec : bytevec) (src : List Byte) (r : List Nat)
    (h : crawl fuel bvec src = Run.done r) : crawl (fuel + k) bvec src = Run.done r := by
  unfold crawl at h ⊢
  by_cases h0 : bvec.len = 0 ∨ src.length = 0
  · rw [if_pos h0] at h; cases h
  · rw [if_neg h0] at h ⊢
    simp only at h ⊢
    cases ho : overlap bvec with
    | none => rw [ho] at h; cases h
    | some ov =>
      rw [ho] at h
      exact crawl_loop_done_mono _ _ _ _ _ k fuel _ _ _ h

/-- With a comparison length of 0 and a match jump of 0 the loop stays at
offset 0 and prints it once per iteration. -/
theorem crawl_loop_stuck (jmptbl : Byte → Nat) (vec src : List Byte) (hsrc : 0 < src.length) :
    ∀ (fuel : Nat) (out : List Nat),
    crawl_loop jmptbl vec src 0 0 fuel 0 out = Run.running 0 (out ++ List.replicate fuel 0) := by
  intro fuel
  induction fuel with
  | zero => intro out; simp [crawl_loop, hsrc]
  | succ fuel ih =>
    intro out
    simp only [crawl_loop, hsrc, if_true, crawl_compare, Nat.sub_self, Nat.add_zero]
    rw [ih]
    simp [List.replicate_succ]

/-- A single-byte pattern on a non-empty file: the comparison length and the
match jump are 0, so no number of iterations ends the loop. -/
theorem crawl_single_byte_stuck (b : Byte) (src : List Byte) (hsrc : 0 < src.length)
    (fuel : Nat) :
    crawl fuel { len := 1, vec := [b] } src = Run.running 0 (List.replicate fuel 0) := by
  have h := crawl_loop_stuck (generate_jump_table { len := 1, vec := [b] }) [b] src hsrc fuel []
  have hne : ¬ src = [] := fun e => by simp [e] at hsrc
  simpa [crawl, overlap, hne] using h

/-! ## The scan on concrete inputs -/

/-- C1 (completeness of the scan) at two concrete inputs. The pattern "ab"
occurs at offset 0 of the 2-byte file "ab", yet the loop test `off < size` fails
at once and nothing is printed; and "ab" occurs at offset 1 of "aabx", yet the
mismatch at window index 1 advances `off` by the table entry of the pattern byte
`b`, which is 2, past that window, and again nothing is printed. -/
theorem crawl_misses_occurrence :
    (occurs_at [97, 98] [97, 98] 0 ∧
      ∀ fuel, crawl fuel (compile_str [97, 98] nul_handling.DROP_NUL) [97, 98] = Run.done []) ∧
    (occurs_at [97, 98] [97, 97, 98, 120] 1 ∧
      ∀ fuel, crawl (1 + fuel) (compile_str [97, 98] nul_handling.DROP_NUL) [97, 97, 98, 120]
        = Run.done []) := by
  refine ⟨⟨by decide, fun fuel => ?_⟩, ⟨by decide, fun fuel => ?_⟩⟩
  · have h := crawl_done_mono fuel 0 (compile_str [97, 98] nul_handling.DROP_NUL) [97, 98] []
      (by decide)
    rwa [Nat.zero_add] at h
  · exact crawl_done_mono fuel 1 (compile_str [97, 98] nul_handling.DROP_NUL)
      [97, 97, 98, 120] [] (by decide)

/-- C2 (end-to-end example): the pattern compiled from "abc" as `str` has
overlap 3, and scanning the 12 bytes "xxabcxxabcxx" for it ends, with any fuel
from 6 on, having printed exactly the offsets 2 and 7 in that order. -/
theorem crawl_abc_example :
    overlap (compile_str [97, 98, 99] nul_handling.DROP_NUL) = some 3 ∧
    ([120, 120, 97, 98, 99, 120, 120, 97, 98, 99, 120, 120] : List Byte).length = 12 ∧
    ∀ fuel, crawl (6 + fuel) (compile_str [97, 98, 99] nul_handling.DROP_NUL)
      [120, 120, 97, 98, 99, 120, 120, 97, 98, 99, 120, 120] = Run.done [2, 7] := by
  refine ⟨by decide, by decide, fun fuel => ?_⟩
  exact crawl_done_mono fuel 6 _ _ _ (by decide)

/-- C3 (termination of the scan) at the single-byte pattern "a" and the file
"a": `overlap` returns 0, so the comparison length and the match jump are both 0;
whatever the number of iterations, the loop is still running with `off = 0`
below the size 1, having printed offset 0 once per iteration. -/
theorem crawl_single_byte_never_stops :
    (compile_str [97] nul_handling.DROP_NUL).len = 1 ∧ 0 < ([97] : List Byte).length ∧
    ∀ fuel, crawl fuel (compile_str [97] nul_handling.DROP_NUL) [97]
      = Run.running 0 (List.replicate fuel 0) :=
  ⟨by decide, by decide, fun fuel => crawl_single_byte_stuck 97 [97] (by decide) fuel⟩

/-- C4 (output ordering) at the single-byte pattern "a" and the file "a": after
two or more iterations the offsets printed so far are 0, 0, ..., which is not a
strictly increasing sequence. -/
theorem crawl_single_byte_repeats_offset :
    ∀ fuel, ∃ out, crawl (fuel + 2) (compile_str [97] nul_handling.DROP_NUL) [97]
      = Run.running 0 out ∧ out.take 2 = [0, 0] ∧ ¬ strictly_increasing out := by
  intro fuel
  refine ⟨List.replicate (fuel + 2) 0, ?_, ?_, ?_⟩
  · exact crawl_single_byte_stuck 97 [97] (by decide) (fuel + 2)
  · simp [List.replicate_succ]
  · simp [strictly_increasing, List.replicate_succ]

/-- C5 (short source) at the 3-byte pattern "aba" and the 2-byte file "ab": the
overlap of "aba" is 1, only the first byte is compared, and offset 0 is printed
although the file is shorter than the pattern. -/
theorem crawl_short_source_prints :
    ([97, 98] : List Byte).length < (compile_str [97, 98, 97] nul_handling.DROP_NUL).len ∧
    overlap (compile_str [97, 98, 97] nul_handling.DROP_NUL) = some 1 ∧
    ∀ fuel, crawl (1 + fuel) (compile_str [97, 98, 97] nul_handling.DROP_NUL) [97, 98]
      = Run.done [0] := by
  refine ⟨by decide, by decide, fun fuel => ?_⟩
  exact crawl_done_mono fuel 1 _ _ _ (by decide)

/-! ## Overlap -/

/-- Inside the pattern the loop condition of `overlap` (first bytes equal and
`memcmp` equal) says that the suffix from `i` is a prefix. -/
theorem overlap_test_iff (vec : List Byte) (i : Nat) (hi : i < vec.length) :
    (vec.getD 0 0 = vec.getD i 0 ∧ memcmp_eq vec (vec.drop i) (vec.length - i) = true)
      ↔ border_at vec i := by
  have htake : (vec.drop i).take (vec.length - i) = vec.drop i :=
    List.take_of_length_le (by simp)
  unfold memcmp_eq border_at
  rw [htake, beq_iff_eq]
  constructor
  · rintro ⟨_, h⟩
    exact h.symm
  · intro h
    refine ⟨?_, h.symm⟩
    have h0 : (vec.drop i)[0]? = (vec.take (vec.length - i))[0]? := by rw [h]
    rw [List.getElem?_drop, List.getElem?_take_of_lt (by omega)] at h0
    simp only [List.getD_eq_getElem?_getD, Nat.add_zero] at h0 ⊢
    rw [h0]

/-- Where the loop of `overlap` stops: at the first index from `i` on whose suffix
is a prefix, or at `len`. -/
theorem overlap_scan_spec (vec : List Byte) : ∀ (k i : Nat), i + k = vec.length →
    i ≤ overlap_scan vec.length vec k i ∧ overlap_scan vec.length vec k i ≤ vec.length ∧
    (overlap_scan vec.length vec k i < vec.length →
      border_at vec (overlap_scan vec.length vec k i)) ∧
    (∀ j, i ≤ j → j < overlap_scan vec.length vec k i → ¬ border_at vec j) := by
  intro k
  induction k with
  | zero =>
    intro i hik
    simp only [overlap_scan]
    refine ⟨Nat.le_refl _, by omega, fun h => by omega, fun j h1 h2 => by omega⟩
  | succ k ih =>
    intro i hik
    have hi : i < vec.length := by omega
    by_cases hc : vec.getD 0 0 = vec.getD i 0 ∧
        memcmp_eq vec (vec.drop i) (vec.length - i) = true
    · have e : overlap_scan vec.length vec (k + 1) i = i := by
        simp only [overlap_scan]; rw [if_pos hc]
      rw [e]
      exact ⟨Nat.le_refl _, by omega, fun _ => (overlap_test_iff vec i hi).1 hc,
        fun j h1 h2 => by omega⟩
    · have e : overlap_scan vec.length vec (k + 1) i = overlap_scan vec.length vec k (i + 1) := by
        simp only [overlap_scan]; rw [if_neg hc]
      rw [e]
      obtain ⟨h1, h2, h3, h4⟩ := ih (i + 1) (by omega)
      refine ⟨by omega, h2, h3, fun j hj1 hj2 => ?_⟩
      by_cases hji : j = i
      · subst hji
        exact fun hb => hc ((overlap_test_iff vec j hi).2 hb)
      · exact h4 j (by omega) hj2

/-- The value of `overlap` from the index at which its loop stops. -/
theorem overlap_of_scan (bv : bytevec) (h2 : 2 ≤ bv.len) (h32 : bv.len < 2 ^ 32) (r : Nat)
    (hr : overlap_scan bv.len bv.vec (bv.len - 1) 1 = r) (h1r : 1 ≤ r) (hrn : r ≤ bv.len) :
    overlap bv = some (if r < bv.len then bv.len - r else bv.len) := by
  have hmod : (bv.len + 2 ^ 32 - r) % 2 ^ 32 = bv.len - r := by
    have e : bv.len + 2 ^ 32 - r = (bv.len - r) + 2 ^ 32 := by omega
    rw [e, Nat.add_mod_right]
    exact Nat.mod_eq_of_lt (by omega)
  unfold overlap
  rw [if_neg (by omega)]
  simp only [hr, hmod]
  rw [if_pos (by omega)]
  by_cases hlt : r < bv.len
  · rw [if_pos hlt, if_pos (by omega)]
  · rw [if_neg hlt, if_neg (by omega)]

/-- C6 (overlap reference definition). For a byte vector whose `len` is the
number of its bytes, at least 1 and an `unsigned int`: a single byte gives 0;
from two bytes on, if `i` is the smallest index with `1 ≤ i < n` whose suffix
`pattern[i..n)` equals the prefix `pattern[0..n-i)` the result is `n - i`, and if
there is no such index the result is `n`. In particular "abcxabc" gives 3, "aaa"
gives 2, "x" gives 0 and "abcdef" gives 6. -/
theorem overlap_reference (bv : bytevec) (hwf : bv.vec.length = bv.len) (h1 : 1 ≤ bv.len)
    (h32 : bv.len < 2 ^ 32) :
    (bv.len = 1 → overlap bv = some 0) ∧
    (2 ≤ bv.len → ∀ i, 1 ≤ i → i < bv.len → border_at bv.vec i →
      (∀ k, 1 ≤ k → k < i → ¬ border_at bv.vec k) → overlap bv = some (bv.len - i)) ∧
    (2 ≤ bv.len → (∀ i, 1 ≤ i → i < bv.len → ¬ border_at bv.vec i) →
      overlap bv = some bv.len) ∧
    overlap (compile_str [97, 98, 99, 120, 97, 98, 99] nul_handling.DROP_NUL) = some 3 ∧
    overlap (compile_str [97, 97, 97] nul_handling.DROP_NUL) = some 2 ∧
    overlap (compile_str [120] nul_handling.DROP_NUL) = some 0 ∧
    overlap (compile_str [97, 98, 99, 100, 101, 102] nul_handling.DROP_NUL) = some 6 := by
  have hspec := overlap_scan_spec bv.vec (bv.len - 1) 1 (by omega)
  rw [hwf] at hspec
  obtain ⟨s1, s2, s3, s4⟩ := hspec
  refine ⟨fun h => by simp [overlap, h], ?_, ?_, by decide, by decide, by decide, by decide⟩
  · intro h2 i hi1 hin hb hmin
    have hle : overlap_scan bv.len bv.vec (bv.len - 1) 1 ≤ i := by
      by_contra hgt
      exact s4 i hi1 (by omega) hb
    have hge : i ≤ overlap_scan bv.len bv.vec (bv.len - 1) 1 := by
      by_contra hlt
      exact hmin _ s1 (by omega) (s3 (by omega))
    have heq : overlap_scan bv.len bv.vec (bv.len - 1) 1 = i := by omega
    rw [overlap_of_scan bv h2 h32 i heq hi1 (by omega), if_pos hin]
  · intro h2 hnone
    have heq : overlap_scan bv.len bv.vec (bv.len - 1) 1 = bv.len := by
      by_contra hne
      exact hnone _ s1 (by omega) (s3 (by omega))
    rw [overlap_of_scan bv h2 h32 bv.len heq h1 (Nat.le_refl _), if_neg (by omega)]

/-- C6 at "abcxabc", where the smallest index whose suffix is a prefix is 4 and
the overlap 7 - 4, at "abcdef", where there is no such index, and at "x". -/
theorem overlap_reference_witness :
    overlap (compile_str [97, 98, 99, 120, 97, 98, 99] nul_handling.DROP_NUL) = some (7 - 4) ∧
    overlap (compile_str [97, 98, 99, 100, 101, 102] nul_handling.DROP_NUL) = some 6 ∧
    overlap (compile_str [120] nul_handling.DROP_NUL) = some 0 :=
  ⟨(overlap_reference (compile_str [97, 98, 99, 120, 97, 98, 99] nul_handling.DROP_NUL)
      (by decide) (by decide) (by decide)).2.1 (by decide) 4 (by decide) (by decide) (by decide)
      (by decide),
    (overlap_reference (compile_str [97, 98, 99, 100, 101, 102] nul_handling.DROP_NUL)
      (by decide) (by decide) (by decide)).2.2.1 (by decide) (by decide),
    (overlap_reference (compile_str [120] nul_handling.DROP_NUL)
      (by decide) (by decide) (by decide)).1 (by decide)⟩

/-! ## Jump table -/

/-- The filling loop keeps every entry between 1 and `len`. -/
theorem jump_fill_range (len : Nat) (vec : List Byte) : ∀ (k j : Nat) (tbl : Byte → Nat),
    j + k ≤ len → (∀ b, 1 ≤ tbl b ∧ tbl b ≤ len) →
    ∀ b, 1 ≤ jump_fill len vec k j tbl b ∧ jump_fill len vec k j tbl b ≤ len := by
  intro k
  induction k with
  | zero => intro j tbl _ h b; exact h b
  | succ k ih =>
    intro j tbl hjk h b
    simp only [jump_fill]
    apply ih (j + 1) _ (by omega)
    intro x
    by_cases ht : tbl (vec.getD j 0) = len
    · rw [if_pos ht]
      by_cases hx : x = vec.getD j 0
      · simp only [hx, if_true]; omega
      · simp only [hx, if_false]; exact h x
    · rw [if_neg ht]; exact h x

/-- The filling loop leaves the entry of a byte alone that it does not meet. -/
theorem jump_fill_absent (len : Nat) (vec : List Byte) (b : Byte) :
    ∀ (k j : Nat) (tbl : Byte → Nat),
    (∀ i, j ≤ i → i < j + k → vec.getD i 0 ≠ b) → jump_fill len vec k j tbl b = tbl b := by
  intro k
  induction k with
  | zero => intro j tbl _; rfl
  | succ k ih =>
    intro j tbl h
    simp only [jump_fill]
    rw [ih (j + 1) _ (fun i h1 h2 => h i (by omega) (by omega))]
    have hb : b ≠ vec.getD j 0 := fun e => h j (Nat.le_refl _) (by omega) e.symm
    by_cases ht : tbl (vec.getD j 0) = len
    · rw [if_pos ht]; simp only [hb, if_false]
    · rw [if_neg ht]

/-- C7 (skip-table range invariant). For a byte vector whose `len` is the number
of its bytes and at least 1, each of the 256 entries of the table built by
`generate_jump_table` lies between 1 and `len`, and the entry of a byte value
that does not occur in the pattern is `len`. -/
theorem jump_table_range (bv : bytevec) (hwf : bv.vec.length = bv.len) (h1 : 1 ≤ bv.len) :
    (∀ b : Byte, 1 ≤ generate_jump_table bv b ∧ generate_jump_table bv b ≤ bv.len) ∧
    (∀ b : Byte, b ∉ bv.vec → generate_jump_table bv b = bv.len) := by
  constructor
  · intro b
    exact jump_fill_range bv.len bv.vec bv.len 0 _ (by omega) (fun _ => ⟨h1, Nat.le_refl _⟩) b
  · intro b hb
    unfold generate_jump_table
    rw [jump_fill_absent bv.len bv.vec b bv.len 0 _ ?_]
    intro i _ hi e
    apply hb
    have hil : i < bv.vec.length := by omega
    rw [List.getD_eq_getElem _ _ hil] at e
    rw [← e]
    exact List.getElem_mem _

/-- C7 at the pattern "aba": the entries of `a` and `b` are 1 and 2, and the
entry of `x`, which does not occur, is 3. -/
theorem jump_table_range_witness :
    ((compile_str [97, 98, 97] nul_handling.DROP_NUL).vec.length
        = (compile_str [97, 98, 97] nul_handling.DROP_NUL).len ∧
      1 ≤ (compile_str [97, 98, 97] nul_handling.DROP_NUL).len) ∧
    generate_jump_table (compile_str [97, 98, 97] nul_handling.DROP_NUL) 97 = 1 ∧
    generate_jump_table (compile_str [97, 98, 97] nul_handling.DROP_NUL) 98 = 2 ∧
    ((∀ b : Byte, 1 ≤ generate_jump_table (compile_str [97, 98, 97] nul_handling.DROP_NUL) b ∧
        generate_jump_table (compile_str [97, 98, 97] nul_handling.DROP_NUL) b
          ≤ (compile_str [97, 98, 97] nul_handling.DROP_NUL).len) ∧
      (∀ b : Byte, b ∉ (compile_str [97, 98, 97] nul_handling.DROP_NUL).vec →
        generate_jump_table (compile_str [97, 98, 97] nul_handling.DROP_NUL) b
          = (compile_str [97, 98, 97] nul_handling.DROP_NUL).len)) :=
  ⟨⟨by decide, by decide⟩, by decide, by decide,
    jump_table_range (compile_str [97, 98, 97] nul_handling.DROP_NUL) (by decide) (by decide)⟩

/-! ## Hex needles -/

theorem HEXVAL_lt : ∀ c : Byte, HEXVAL c < 16 := by decide

theorem HEXVAL_to_upper : ∀ c : Byte, HEXVAL (to_upper c) = HEXVAL c := by decide

theorem HEXVAL_to_lower : ∀ c : Byte, HEXVAL (to_lower c) = HEXVAL c := by decide

theorem isxdigit_to_upper : ∀ c : Byte, isxdigit (to_upper c) = isxdigit c := by decide

theorem isxdigit_to_lower : ∀ c : Byte, isxdigit (to_lower c) = isxdigit c := by decide

theorem hex_digit_lower_HEXVAL :
    ∀ c : Byte, isxdigit c = true → hex_digit_lower (HEXVAL c) = to_lower c := by decide

theorem hex_digit_upper_HEXVAL :
    ∀ c : Byte, isxdigit c = true → hex_digit_upper (HEXVAL c) = to_upper c := by decide

theorem lor_nybbles :
    ∀ h, h < 16 → ∀ l, l < 16 → ((0 ||| h * 16) % 256 ||| l * 1) % 256 = h * 16 + l := by
  decide

/-- Only the parity of `ncnt` enters the or-ed value. -/
theorem or_nybble_parity (old c : Byte) (ncnt : Nat) :
    or_nybble old c ncnt = or_nybble old c (ncnt % 2) := by
  unfold or_nybble
  rw [Nat.mod_mod]

/-- The byte made of two digits is sixteen times the first value plus the second. -/
theorem hex_pair_val (a b : Byte) :
    (or_nybble (or_nybble 0 a 0) b 1).val = HEXVAL a * 16 + HEXVAL b :=
  lor_nybbles (HEXVAL a) (HEXVAL_lt a) (HEXVAL b) (HEXVAL_lt b)

theorem getD_append_cons (pre tl : List Byte) (x d : Byte) :
    (pre ++ x :: tl).getD pre.length d = x := by
  induction pre with
  | nil => rfl
  | cons p pre ih => simpa using ih

theorem set_append_cons (pre tl : List Byte) (x y : Byte) :
    (pre ++ x :: tl).set pre.length y = pre ++ y :: tl := by
  induction pre with
  | nil => rfl
  | cons p pre ih => simp

/-- The loop of `compile_hex` from an even nybble count on: `pre` holds the bytes
already complete, `r` zero bytes follow, and `2 * r` hex digits are left. -/
theorem compile_hex_loop_even : ∀ (r : Nat) (pre str : List Byte),
    str.length = 2 * r → (∀ c ∈ str, isxdigit c = true) →
    compile_hex_loop (2 * r) str (2 * pre.length) (pre ++ List.replicate r 0)
      = some (pre ++ hex_pairs str) := by
  intro r
  induction r with
  | zero =>
    intro pre str hlen _
    have : str = [] := List.eq_nil_of_length_eq_zero (by omega)
    subst this
    simp [compile_hex_loop, hex_pairs]
  | succ r ih =>
    intro pre str hlen hhex
    match str, hlen, hhex with
    | [], hlen, _ => simp at hlen
    | [_], hlen, _ => simp at hlen; omega
    | a :: b :: rest, hlen, hhex =>
      have ha : isxdigit a = true := hhex a (by simp)
      have hb : isxdigit b = true := hhex b (by simp)
      have hrest : rest.length = 2 * r := by simp at hlen; omega
      have e : 2 * (r + 1) = (2 * r + 1) + 1 := by omega
      have d0 : 2 * pre.length / 2 = pre.length := by omega
      have d1 : (2 * pre.length + 1) / 2 = pre.length := by omega
      have p0 : or_nybble 0 a (2 * pre.length) = or_nybble 0 a 0 := by
        rw [or_nybble_parity]; congr 1; omega
      have p1 : ∀ x, or_nybble x b (2 * pre.length + 1) = or_nybble x b 1 := by
        intro x; rw [or_nybble_parity]; congr 1; omega
      have n2 : 2 * pre.length + 1 + 1
          = 2 * (pre ++ [or_nybble (or_nybble 0 a 0) b 1]).length := by
        simp; omega
      rw [e]
      simp only [compile_hex_loop, List.headD_cons, List.tail_cons, ha, hb, if_true, d0, d1,
        List.replicate_succ, getD_append_cons, set_append_cons, p0, p1]
      rw [n2]
      have h := ih (pre ++ [or_nybble (or_nybble 0 a 0) b 1]) rest hrest
        (fun c hc => hhex c (by simp [hc]))
      simp only [List.append_assoc, List.singleton_append] at h
      rw [h]
      simp [hex_pairs]

/-- What `compile_hex` returns on a non-empty string of hex digits. -/
theorem compile_hex_digits (s : List Byte) (hne : s ≠ [])
    (hhex : ∀ c ∈ s, isxdigit c = true) :
    compile_hex s s.length
      = Ret.val { len := (s.length + 1) / 2, vec := hex_pairs (hex_padded s) } := by
  have hpos : 0 < s.length := List.length_pos.2 hne
  unfold compile_hex hex_padded
  rw [if_neg (by omega)]
  by_cases hodd : s.length % 2 = 1
  · match s, hne, hhex, hpos, hodd with
    | a :: rest, _, hhex, _, hodd =>
      have hr : rest.length = 2 * (rest.length / 2) := by simp at hodd; omega
      have hb : (rest.length + 1 + 1) / 2 = rest.length / 2 + 1 := by omega
      have hf : 2 * (rest.length / 2 + 1) - 1 = 2 * (rest.length / 2) + 1 := by omega
      have ha : isxdigit a = true := hhex a (by simp)
      have h := compile_hex_loop_even (rest.length / 2) [or_nybble 0 a 1] rest hr
        (fun c hc => hhex c (by simp [hc]))
      have z : or_nybble (or_nybble 0 48 0) a 1 = or_nybble 0 a 1 := rfl
      have hodd1 : (rest.length + 1) % 2 = 1 := by simpa using hodd
      have e1 : (1 : Nat) / 2 = 0 := by decide
      simp only [List.length_singleton, List.singleton_append, Nat.mul_one] at h
      simp only [List.length_cons, hodd1, if_true, hb, hf, compile_hex_loop, List.headD_cons,
        List.tail_cons, ha, List.replicate_succ, e1, List.getD_cons_zero, List.set_cons_zero,
        hex_pairs, z]
      rw [h]
  · have hr : s.length = 2 * ((s.length + 1) / 2) := by omega
    have h := compile_hex_loop_even ((s.length + 1) / 2) [] s hr hhex
    simp only [List.length_nil, Nat.mul_zero, List.nil_append] at h
    simp only [hodd, if_false, Nat.sub_zero]
    rw [h]

/-- The loop of `compile_hex` returns `NULL` exactly when one of the `k`
characters it walks over is not a hex digit. -/
theorem compile_hex_loop_none_iff : ∀ (k : Nat) (str : List Byte) (ncnt : Nat)
    (vec : List Byte), k ≤ str.length →
    (compile_hex_loop k str ncnt vec = none ↔ ∃ c ∈ str.take k, isxdigit c = false) := by
  intro k
  induction k with
  | zero => intro str ncnt vec _; simp [compile_hex_loop]
  | succ k ih =>
    intro str ncnt vec hk
    match str, hk with
    | [], hk => simp at hk
    | c :: rest, hk =>
      have hk1 : k ≤ rest.length := by simpa using hk
      by_cases hc : isxdigit c = true
      · simp only [compile_hex_loop, List.headD_cons, List.tail_cons, hc, if_true,
          List.take_succ_cons, List.mem_cons]
        rw [ih rest _ _ hk1]
        constructor
        · rintro ⟨x, hx, hxd⟩
          exact ⟨x, Or.inr hx, hxd⟩
        · rintro ⟨x, hx | hx, hxd⟩
          · rw [hx, hc] at hxd; cases hxd
          · exact ⟨x, hx, hxd⟩
      · have hcf : isxdigit c = false := by simpa using hc
        simp only [compile_hex_loop, List.headD_cons, hcf, List.take_succ_cons, List.mem_cons]
        simp only [Bool.false_eq_true, if_false, true_iff]
        exact ⟨c, Or.inl rfl, hcf⟩

/-- The number of iterations of the loop of `compile_hex` is `len`. -/
theorem compile_hex_trip_count (len : Nat) :
    2 * ((len + 1) / 2) - (if len % 2 = 1 then 1 else 0) = len := by
  by_cases h : len % 2 = 1
  · rw [if_pos h]; omega
  · rw [if_neg h]; omega

/-- A digit's value alone enters the or-ed byte. -/
theorem or_nybble_congr (f : Byte → Byte) (hf : ∀ c, HEXVAL (f c) = HEXVAL c)
    (old c : Byte) (n : Nat) : or_nybble old (f c) n = or_nybble old c n := by
  unfold or_nybble
  rw [hf]

theorem hex_pairs_map (f : Byte → Byte) (hf : ∀ c, HEXVAL (f c) = HEXVAL c) :
    ∀ s : List Byte, hex_pairs (s.map f) = hex_pairs s
  | [] => rfl
  | [_] => rfl
  | a :: b :: rest => by
    simp only [List.map_cons, hex_pairs, or_nybble_congr f hf, hex_pairs_map f hf rest]

theorem hex_padded_map (f : Byte → Byte) (h0 : f 48 = 48) (s : List Byte) :
    hex_padded (s.map f) = (hex_padded s).map f := by
  unfold hex_padded
  rw [List.length_map]
  by_cases h : s.length % 2 = 1
  · rw [if_pos h, if_pos h, List.map_cons, h0]
  · rw [if_neg h, if_neg h]

theorem hex_pairs_length : ∀ s : List Byte, (hex_pairs s).length = s.length / 2
  | [] => rfl
  | [_] => by simp [hex_pairs]
  | a :: b :: rest => by
    simp only [hex_pairs, List.length_cons, hex_pairs_length rest]
    omega

/-- Writing the bytes of digit pairs out again gives the digits in the case of
the digit function. -/
theorem hex_encode_pairs (digit : Nat → Byte) (f : Byte → Byte)
    (hd : ∀ c : Byte, isxdigit c = true → digit (HEXVAL c) = f c) :
    ∀ s : List Byte, s.length % 2 = 0 → (∀ c ∈ s, isxdigit c = true) →
      hex_encode digit (hex_pairs s) = s.map f
  | [], _, _ => rfl
  | [_], h, _ => by simp at h
  | a :: b :: rest, h, hhex => by
    have hr : rest.length % 2 = 0 := by simp at h; omega
    have hq : (HEXVAL a * 16 + HEXVAL b) / 16 = HEXVAL a := by
      have := HEXVAL_lt b; omega
    have hm : (HEXVAL a * 16 + HEXVAL b) % 16 = HEXVAL b := by
      have := HEXVAL_lt b; omega
    simp only [hex_pairs, hex_encode, hex_pair_val, hq, hm, List.map_cons,
      hd a (hhex a (by simp)), hd b (hhex b (by simp)),
      hex_encode_pairs digit f hd rest hr (fun c hc => hhex c (by simp [hc]))]

/-- Changing the case of the digits does not change what `compile_hex` returns. -/
theorem compile_hex_map_case (f : Byte → Byte) (hv : ∀ c, HEXVAL (f c) = HEXVAL c)
    (hx : ∀ c, isxdigit (f c) = isxdigit c) (h0 : f 48 = 48) (s : List Byte) (hne : s ≠ [])
    (hhex : ∀ c ∈ s, isxdigit c = true) :
    compile_hex (s.map f) s.length = compile_hex s s.length := by
  have hne1 : s.map f ≠ [] := by simpa using hne
  have hhex1 : ∀ c ∈ s.map f, isxdigit c = true := by
    intro c hc
    obtain ⟨x, hxs, rfl⟩ := List.mem_map.1 hc
    rw [hx]; exact hhex x hxs
  have h1 := compile_hex_digits (s.map f) hne1 hhex1
  rw [List.length_map] at h1
  rw [h1, compile_hex_digits s hne hhex, hex_padded_map f h0, hex_pairs_map f hv]

/-- C8 (hex compilation of even-length input). On a non-empty string `s` of hex
digits `compile_hex` returns a byte vector of `(len(s) + 1) / 2` bytes, the same
one for `s` in upper and in lower case; when `len(s)` is even that is `len(s) / 2`
bytes, and writing them out as two hex digits per byte gives back `s` in lower
case with lower-case digits and `s` in upper case with upper-case digits. -/
theorem compile_hex_even_roundtrip (s : List Byte) (hne : s ≠ [])
    (hhex : ∀ c ∈ s, isxdigit c = true) :
    ∃ bv, compile_hex s s.length = Ret.val bv ∧
      bv.len = (s.length + 1) / 2 ∧ bv.vec.length = bv.len ∧
      compile_hex (s.map to_upper) s.length = Ret.val bv ∧
      compile_hex (s.map to_lower) s.length = Ret.val bv ∧
      (s.length % 2 = 0 →
        bv.len = s.length / 2 ∧
        hex_encode hex_digit_lower bv.vec = s.map to_lower ∧
        hex_encode hex_digit_upper bv.vec = s.map to_upper) := by
  have hc := compile_hex_digits s hne hhex
  refine ⟨_, hc, rfl, ?_, ?_, ?_, ?_⟩
  · simp only [hex_pairs_length, hex_padded]
    by_cases h : s.length % 2 = 1
    · rw [if_pos h, List.length_cons]
    · rw [if_neg h]; omega
  · rw [compile_hex_map_case to_upper HEXVAL_to_upper isxdigit_to_upper rfl s hne hhex, hc]
  · rw [compile_hex_map_case to_lower HEXVAL_to_lower isxdigit_to_lower rfl s hne hhex, hc]
  · intro heven
    have hp : hex_padded s = s := by
      unfold hex_padded; rw [if_neg (by omega)]
    refine ⟨by show (s.length + 1) / 2 = s.length / 2; omega, ?_, ?_⟩
    · simp only [hp]
      exact hex_encode_pairs hex_digit_lower to_lower hex_digit_lower_HEXVAL s heven hhex
    · simp only [hp]
      exact hex_encode_pairs hex_digit_upper to_upper hex_digit_upper_HEXVAL s heven hhex

/-- C8 at the string "0aFf": two bytes, 0x0a and 0xff, which read back as "0aff"
and as "0AFF". -/
theorem compile_hex_even_roundtrip_witness :
    ∃ bv, compile_hex [48, 97, 70, 102] 4 = Ret.val bv ∧ bv.len = 2 ∧
      bv.vec = [10, 255] ∧
      hex_encode hex_digit_lower bv.vec = [48, 97, 102, 102] ∧
      hex_encode hex_digit_upper bv.vec = [48, 65, 70, 70] := by
  obtain ⟨bv, h1, _, _, _, _, h6⟩ :=
    compile_hex_even_roundtrip [48, 97, 70, 102] (by decide) (by decide)
  obtain ⟨h7, h8, h9⟩ := h6 (by decide)
  have hv : bv = { len := 2, vec := [10, 255] } := by
    have e : compile_hex [48, 97, 70, 102] 4 = Ret.val { len := 2, vec := [10, 255] } := by
      decide
    have h1a : compile_hex [48, 97, 70, 102] 4 = Ret.val bv := h1
    rw [e] at h1a
    exact (Ret.val.inj h1a).symm
  exact ⟨bv, h1, h7, by rw [hv], h8, h9⟩

/-- C9 (hex compilation of odd-length input). On a string `s` of hex digits of
odd length `compile_hex` returns a byte vector whose first byte has high nybble
0 and as low nybble the value of the first digit of `s`, and it is the byte
vector returned for `s` with a `0` put in front. -/
theorem compile_hex_odd_padding (s : List Byte) (hodd : s.length % 2 = 1)
    (hhex : ∀ c ∈ s, isxdigit c = true) :
    ∃ bv b0, compile_hex s s.length = Ret.val bv ∧
      bv.vec.head? = some b0 ∧ b0.val / 16 = 0 ∧ b0.val % 16 = HEXVAL (s.headD 0) ∧
      hex_digit_lower (b0.val % 16) = to_lower (s.headD 0) ∧
      compile_hex (48 :: s) (s.length + 1) = Ret.val bv := by
  match s, hodd, hhex with
  | [], hodd, _ => simp at hodd
  | a :: rest, hodd, hhex =>
    have ha : isxdigit a = true := hhex a (by simp)
    have hc := compile_hex_digits (a :: rest) (by simp) hhex
    have hp : hex_padded (a :: rest) = 48 :: a :: rest := by
      unfold hex_padded; rw [if_pos hodd]
    have hc0 := compile_hex_digits (48 :: a :: rest) (by simp)
      (fun c hc => by
        rcases List.mem_cons.1 hc with h | h
        · rw [h]; rfl
        · exact hhex c h)
    have hp0 : hex_padded (48 :: a :: rest) = 48 :: a :: rest := by
      unfold hex_padded
      rw [if_neg (by simp only [List.length_cons] at hodd ⊢; omega)]
    have hlen : ((48 :: a :: rest : List Byte).length + 1) / 2 = ((a :: rest).length + 1) / 2 := by
      simp only [List.length_cons] at hodd ⊢; omega
    have hval : (or_nybble (or_nybble 0 48 0) a 1).val = HEXVAL a := by
      rw [hex_pair_val]
      have : HEXVAL 48 = 0 := rfl
      omega
    have hlt := HEXVAL_lt a
    rw [hp] at hc
    rw [hp0, hlen] at hc0
    refine ⟨_, or_nybble (or_nybble 0 48 0) a 1, hc, by simp [hex_pairs], ?_, ?_, ?_, hc0⟩
    · rw [hval]; omega
    · rw [hval]; simp only [List.headD_cons]; omega
    · rw [hval, Nat.mod_eq_of_lt hlt]
      simp only [List.headD_cons]
      exact hex_digit_lower_HEXVAL a ha

/-- C9 at the string "aFf": the bytes 0x0a and 0xff, as for "0aFf". -/
theorem compile_hex_odd_padding_witness :
    ∃ bv b0, compile_hex [97, 70, 102] 3 = Ret.val bv ∧
      bv.vec.head? = some b0 ∧ b0.val / 16 = 0 ∧ b0.val % 16 = 10 ∧
      compile_hex [48, 97, 70, 102] 4 = Ret.val bv := by
  obtain ⟨bv, b0, h1, h2, h3, h4, _, h6⟩ :=
    compile_hex_odd_padding [97, 70, 102] (by decide) (by decide)
  exact ⟨bv, b0, h1, h2, h3, h4, h6⟩

/-- C10 (hex failure condition). On a non-empty string `s`, `compile_hex(s, len(s))`
returns `NULL` if and only if some character of `s` is not a hex digit, and it
returns a byte vector otherwise. -/
theorem compile_hex_null_iff (s : List Byte) (hne : s ≠ []) :
    (compile_hex s s.length = Ret.null ↔ ∃ c ∈ s, isxdigit c = false) ∧
    ((∀ c ∈ s, isxdigit c = true) → ∃ bv, compile_hex s s.length = Ret.val bv) := by
  have hpos : 0 < s.length := List.length_pos.2 hne
  have hl := compile_hex_loop_none_iff s.length s (if s.length % 2 = 1 then 1 else 0)
    (List.replicate ((s.length + 1) / 2) 0) (Nat.le_refl _)
  rw [List.take_length] at hl
  constructor
  · unfold compile_hex
    rw [if_neg (by omega)]
    simp only [compile_hex_trip_count]
    rw [← hl]
    cases compile_hex_loop s.length s (if s.length % 2 = 1 then 1 else 0)
      (List.replicate ((s.length + 1) / 2) 0) with
    | none => simp
    | some v => simp
  · intro hall
    exact ⟨_, compile_hex_digits s hne hall⟩

/-- C10 at the strings "ag", which holds the character `g`, and "af". -/
theorem compile_hex_null_iff_witness :
    compile_hex [97, 103] 2 = Ret.null ∧ ∃ bv, compile_hex [97, 102] 2 = Ret.val bv :=
  ⟨(compile_hex_null_iff [97, 103] (by decide)).1.2 ⟨103, by decide, by decide⟩,
    (compile_hex_null_iff [97, 102] (by decide)).2 (by decide)⟩

/-! ## Text and integer needles -/

/-- C11 (text encodings). For a text `t` without a NUL in it, `form_needle` with
`str` returns the bytes of `t` with length `len(t)`, and with `cstr` the bytes of
`t` followed by one zero byte with length `len(t) + 1`; "abc" gives 61 62 63 and
61 62 63 00. -/
theorem form_needle_text (t : List Byte) (_hnul : (0 : Byte) ∉ t) :
    form_needle needle_t.NEEDLE_STR t = Ret.val { len := t.length, vec := t } ∧
    form_needle needle_t.NEEDLE_CSTR t
      = Ret.val { len := t.length + 1, vec := t ++ [0] } ∧
    form_needle needle_t.NEEDLE_STR [97, 98, 99]
      = Ret.val { len := 3, vec := [97, 98, 99] } ∧
    form_needle needle_t.NEEDLE_CSTR [97, 98, 99]
      = Ret.val { len := 4, vec := [97, 98, 99, 0] } := by
  refine ⟨?_, ?_, by decide, by decide⟩
  · simp [form_needle, form_needle_switch, compile_str]
  · simp [form_needle, form_needle_switch, compile_str]

/-- C11 at the text "hi". -/
theorem form_needle_text_witness :
    (0 : Byte) ∉ ([104, 105] : List Byte) ∧
    form_needle needle_t.NEEDLE_STR [104, 105] = Ret.val { len := 2, vec := [104, 105] } ∧
    form_needle needle_t.NEEDLE_CSTR [104, 105]
      = Ret.val { len := 3, vec := [104, 105, 0] } :=
  ⟨by decide, (form_needle_text [104, 105] (by decide)).1,
    (form_needle_text [104, 105] (by decide)).2.1⟩

/-- C13 (integer parse failure) on the code: whatever the text, each of the six
integer types makes `form_needle` return the byte vector of `compile_int`, never
`NULL` and never an abort. From "xyz" and from "-" no digit is consumed, and
the needle is the number 0 in the width asked for. -/
theorem form_needle_int_accepts_any_text :
    (∀ text : List Byte,
      form_needle needle_t.NEEDLE_LE16 text
        = Ret.val (compile_int text 2 endian.ENDIAN_LITTLE) ∧
      form_needle needle_t.NEEDLE_LE32 text
        = Ret.val (compile_int text 4 endian.ENDIAN_LITTLE) ∧
      form_needle needle_t.NEEDLE_LE64 text
        = Ret.val (compile_int text 8 endian.ENDIAN_LITTLE) ∧
      form_needle needle_t.NEEDLE_BE16 text = Ret.val (compile_int text 2 endian.ENDIAN_BIG) ∧
      form_needle needle_t.NEEDLE_BE32 text = Ret.val (compile_int text 4 endian.ENDIAN_BIG) ∧
      form_needle needle_t.NEEDLE_BE64 text
        = Ret.val (compile_int text 8 endian.ENDIAN_BIG)) ∧
    (parse_numeral [120, 121, 122]).digits = 0 ∧ (parse_numeral [45]).digits = 0 ∧
    form_needle needle_t.NEEDLE_LE16 [120, 121, 122] = Ret.val { len := 2, vec := [0, 0] } ∧
    form_needle needle_t.NEEDLE_LE16 [45] = Ret.val { len := 2, vec := [0, 0] } ∧
    form_needle needle_t.NEEDLE_BE32 [120, 121, 122]
      = Ret.val { len := 4, vec := [0, 0, 0, 0] } ∧
    form_needle needle_t.NEEDLE_LE64 [45]
      = Ret.val { len := 8, vec := [0, 0, 0, 0, 0, 0, 0, 0] } := by
  refine ⟨fun text => ⟨rfl, rfl, rfl, rfl, rfl, rfl⟩, by decide, by decide, by decide,
    by decide, by decide, by decide⟩

/-- C14 (byte vector length invariant) at the type `str` and the empty text:
`form_needle` returns a byte vector of length 0, on which `crawl` stops at its
`assert(bvec->len > 0)` whatever the file. -/
theorem form_needle_str_empty :
    form_needle needle_t.NEEDLE_STR [] = Ret.val { len := 0, vec := [] } ∧
    ∀ (fuel : Nat) (src : List Byte), crawl fuel { len := 0, vec := [] } src = Run.fault := by
  refine ⟨by decide, fun fuel src => ?_⟩
  simp [crawl]

/-! ## Integer serialisation -/

/-- The filling loop of `decompose_int` writes the bytes `val >> (j * 8)` for
`j = i, i + 1, ...` over the zero bytes it walks. -/
theorem decompose_fill_eq (val : Nat) : ∀ (k i : Nat) (pre : List Byte), pre.length = i →
    decompose_fill val k i (pre ++ List.replicate k 0)
      = pre ++ (List.range' i k).map (fun j => (Fin.ofNat (val >>> (j * 8)) : Byte)) := by
  intro k
  induction k with
  | zero => intro i pre _; simp [decompose_fill]
  | succ k ih =>
    intro i pre hpre
    simp only [decompose_fill, List.replicate_succ, List.range'_succ, List.map_cons]
    rw [← hpre, set_append_cons]
    have h := ih (pre.length + 1) (pre ++ [(Fin.ofNat (val >>> (pre.length * 8)) : Byte)])
      (by simp)
    simp only [List.append_assoc, List.singleton_append] at h
    exact h

/-- The bytes of `decompose_int` before any reversal. -/
theorem decompose_fill_zero (val sz : Nat) :
    decompose_fill val sz 0 (List.replicate sz 0)
      = (List.range' 0 sz).map (fun j => (Fin.ofNat (val >>> (j * 8)) : Byte)) := by
  have h := decompose_fill_eq val sz 0 [] rfl
  simpa using h

/-- A byte cut from a shifted value, as a number. -/
theorem shifted_byte_val (val j : Nat) :
    ((Fin.ofNat (val >>> (j * 8)) : Byte)).val = (val / 256 ^ j) % 256 := by
  have h : (2 : Nat) ^ (j * 8) = 256 ^ j := by
    rw [Nat.mul_comm, Nat.pow_mul]
  show (val >>> (j * 8)) % 256 = (val / 256 ^ j) % 256
  rw [Nat.shiftRight_eq_div_pow, h]

/-- The number written by `k` bytes cut from `val` from byte `i` on. -/
theorem le_value_shifted (val : Nat) : ∀ (k i : Nat),
    le_value ((List.range' i k).map (fun j => (Fin.ofNat (val >>> (j * 8)) : Byte)))
      = (val / 256 ^ i) % 256 ^ k := by
  intro k
  induction k with
  | zero => intro i; simp [le_value, Nat.mod_one]
  | succ k ih =>
    intro i
    simp only [List.range'_succ, List.map_cons, le_value]
    have e : (256 : Nat) ^ (k + 1) = 256 * 256 ^ k := Nat.pow_succ'
    rw [ih (i + 1), shifted_byte_val, e, Nat.mod_mul, Nat.pow_succ, Nat.div_div_eq_div_mul]

/-- The loop of `revmem` turns the stretch between its two indices around. -/
theorem revmem_loop_eq : ∀ (k : Nat) (mid pre post : List Byte), mid.length ≤ 2 * k →
    revmem_loop k pre.length (pre.length + mid.length - 1) (pre ++ mid ++ post)
      = pre ++ mid.reverse ++ post := by
  intro k
  induction k with
  | zero =>
    intro mid pre post h
    have : mid = [] := List.eq_nil_of_length_eq_zero (by omega)
    subst this
    simp [revmem_loop]
  | succ k ih =>
    intro mid pre post h
    match mid, h with
    | [], _ =>
      have hn : ¬ pre.length < pre.length - 1 := by omega
      simp [revmem_loop, hn]
    | [x], _ => simp [revmem_loop]
    | x :: z :: m, h =>
      obtain ⟨m', y, hm⟩ : ∃ m' y, z :: m = m' ++ [y] := by
        rcases List.eq_nil_or_concat (z :: m) with h0 | ⟨L, b, hL⟩
        · cases h0
        · exact ⟨L, b, by rw [hL, List.concat_eq_append]⟩
      have hml : m'.length = m.length := by
        have := congrArg List.length hm
        simp at this; omega
      have hk : m'.length ≤ 2 * k := by simp at h; omega
      rw [hm]
      have he : pre.length + (x :: (m' ++ [y])).length - 1 = (pre ++ x :: m').length := by
        simp
      have hlt : pre.length < (pre ++ x :: m').length := by simp
      have b1 : pre ++ x :: (m' ++ [y]) ++ post = pre ++ x :: (m' ++ y :: post) := by simp
      have b2 : pre ++ x :: (m' ++ [y]) ++ post = (pre ++ x :: m') ++ y :: post := by simp
      have g1 : (pre ++ x :: (m' ++ [y]) ++ post).getD (pre ++ x :: m').length 0 = y := by
        rw [b2, getD_append_cons]
      have g2 : (pre ++ x :: (m' ++ [y]) ++ post).getD pre.length 0 = x := by
        rw [b1, getD_append_cons]
      have s1 : (pre ++ x :: (m' ++ [y]) ++ post).set pre.length y
          = (pre ++ y :: m') ++ y :: post := by
        rw [b1, set_append_cons]; simp
      have hl2 : (pre ++ x :: m').length = (pre ++ y :: m').length := by simp
      have a1 : pre.length + 1 = (pre ++ [y]).length := by simp
      have a2 : (pre ++ y :: m').length - 1 = (pre ++ [y]).length + m'.length - 1 := by
        simp
      have a3 : (pre ++ y :: m') ++ x :: post = pre ++ [y] ++ m' ++ x :: post := by simp
      rw [he]
      simp only [revmem_loop, hlt, if_true]
      rw [g1, g2, s1, hl2, set_append_cons, a2, a1, a3, ih m' (pre ++ [y]) (x :: post) hk]
      simp

/-- `revmem` over the whole buffer is the reversal. -/
theorem revmem_eq_reverse (buf : List Byte) : revmem buf buf.length = buf.reverse := by
  have h := revmem_loop_eq buf.length buf [] [] (by omega)
  simpa [revmem] using h

/-- C12 (integer serialisation). For a 64-bit value `v` and a width `w` of 2, 4
or 8, `decompose_int(v, w, little)` has length `w`, its byte `i` is
`(v / 256^i) mod 256`, and read least significant byte first the bytes write
`v mod 2^(8w)` (for `w = 8` that is `v`); `decompose_int(v, w, big)` has the same
bytes in reverse order. "1" compiles to 01 00 as `le16` and to 00 01 as `be16`,
and "-1" to ff ff as `le16`, "-2" to ff ff ff fe as `be32`. -/
theorem decompose_int_serialises (v w : Nat) (hv : v < 2 ^ 64)
    (_hw : w = 2 ∨ w = 4 ∨ w = 8) :
    (decompose_int v w endian.ENDIAN_LITTLE).len = w ∧
    (decompose_int v w endian.ENDIAN_LITTLE).vec.length = w ∧
    (∀ i, i < w →
      ((decompose_int v w endian.ENDIAN_LITTLE).vec.getD i 0).val = (v / 256 ^ i) % 256) ∧
    le_value (decompose_int v w endian.ENDIAN_LITTLE).vec = v % 2 ^ (8 * w) ∧
    (w = 8 → le_value (decompose_int v w endian.ENDIAN_LITTLE).vec = v) ∧
    (decompose_int v w endian.ENDIAN_BIG).len = w ∧
    (decompose_int v w endian.ENDIAN_BIG).vec
      = (decompose_int v w endian.ENDIAN_LITTLE).vec.reverse ∧
    form_needle needle_t.NEEDLE_LE16 [49] = Ret.val { len := 2, vec := [1, 0] } ∧
    form_needle needle_t.NEEDLE_BE16 [49] = Ret.val { len := 2, vec := [0, 1] } ∧
    form_needle needle_t.NEEDLE_LE16 [45, 49] = Ret.val { len := 2, vec := [255, 255] } ∧
    form_needle needle_t.NEEDLE_BE32 [45, 50]
      = Ret.val { len := 4, vec := [255, 255, 255, 254] } := by
  have hl : (decompose_int v w endian.ENDIAN_LITTLE).vec
      = (List.range' 0 w).map (fun j => (Fin.ofNat (v >>> (j * 8)) : Byte)) := by
    simp only [decompose_int, decompose_fill_zero]
    rfl
  have hlen : ((List.range' 0 w).map (fun j => (Fin.ofNat (v >>> (j * 8)) : Byte))).length = w := by
    simp
  have hval : le_value (decompose_int v w endian.ENDIAN_LITTLE).vec = v % 2 ^ (8 * w) := by
    rw [hl, le_value_shifted, Nat.pow_zero, Nat.div_one, Nat.pow_mul]
  refine ⟨rfl, by rw [hl, hlen], ?_, hval, ?_, rfl, ?_, by decide, by decide, by decide,
    by decide⟩
  · intro i hi
    rw [hl, ← shifted_byte_val]
    congr 1
    simp [List.getD_eq_getElem?_getD, List.getElem?_range', hi]
  · intro h8
    rw [hval, h8]
    exact Nat.mod_eq_of_lt hv
  · have hb : (decompose_int v w endian.ENDIAN_BIG).vec
        = revmem ((List.range' 0 w).map (fun j => (Fin.ofNat (v >>> (j * 8)) : Byte))) w := by
      simp only [decompose_int, decompose_fill_zero]
      rfl
    rw [hb, hl]
    have h := revmem_eq_reverse ((List.range' 0 w).map (fun j => (Fin.ofNat (v >>> (j * 8)) : Byte)))
    rw [hlen] at h
    exact h

/-- C12 at the value 0x1234 and the width 2: little-endian 34 12, big-endian
12 34. -/
theorem decompose_int_serialises_witness :
    ((4660 : Nat) < 2 ^ 64 ∧ ((2 : Nat) = 2 ∨ (2 : Nat) = 4 ∨ (2 : Nat) = 8)) ∧
    (decompose_int 4660 2 endian.ENDIAN_LITTLE).vec = [52, 18] ∧
    le_value (decompose_int 4660 2 endian.ENDIAN_LITTLE).vec = 4660 % 2 ^ (8 * 2) ∧
    (decompose_int 4660 2 endian.ENDIAN_BIG).vec
      = (decompose_int 4660 2 endian.ENDIAN_LITTLE).vec.reverse :=
  ⟨⟨by decide, by decide⟩, by decide,
    (decompose_int_serialises 4660 2 (by decide) (by decide)).2.2.2.1,
    (decompose_int_serialises 4660 2 (by decide) (by decide)).2.2.2.2.2.2.1⟩

/-! ## Jump table: what the entries are -/

/-- An entry that differs from `len` is never written again. -/
theorem jump_fill_keep (len : Nat) (vec : List Byte) (b : Byte) :
    ∀ (k j : Nat) (tbl : Byte → Nat), tbl b ≠ len → jump_fill len vec k j tbl b = tbl b := by
  intro k
  induction k with
  | zero => intro j tbl _; rfl
  | succ k ih =>
    intro j tbl h
    simp only [jump_fill]
    by_cases ht : tbl (vec.getD j 0) = len
    · have hb : b ≠ vec.getD j 0 := fun e => h (e ▸ ht)
      rw [if_pos ht, ih (j + 1) _ (by simp only [hb, if_false]; exact h)]
      simp only [hb, if_false]
    · rw [if_neg ht, ih (j + 1) _ h]

/-- The entry of a byte whose first occurrence `f` lies in the stretch the loop
still walks becomes `f + 1`. -/
theorem jump_fill_first (len : Nat) (vec : List Byte) (b : Byte) (f : Nat)
    (hf : vec.getD f 0 = b) :
    ∀ (k j : Nat) (tbl : Byte → Nat), tbl b = len → j ≤ f → f < j + k → j + k ≤ len →
      (∀ i, j ≤ i → i < f → vec.getD i 0 ≠ b) → jump_fill len vec k j tbl b = f + 1 := by
  intro k
  induction k with
  | zero => intro j tbl _ h1 h2; omega
  | succ k ih =>
    intro j tbl ht h1 h2 h3 hbefore
    simp only [jump_fill]
    by_cases hjf : j = f
    · subst hjf
      rw [hf, if_pos ht]
      cases k with
      | zero => simp [jump_fill]
      | succ k =>
        rw [jump_fill_keep len vec b _ _ _ (by simp only [if_true]; omega)]
        simp
    · have hne : vec.getD j 0 ≠ b := hbefore j (Nat.le_refl _) (by omega)
      have hb : b ≠ vec.getD j 0 := fun e => hne e.symm
      apply ih (j + 1) _ ?_ (by omega) (by omega) (by omega)
        (fun i hi1 hi2 => hbefore i (by omega) hi2)
      by_cases hg : tbl (vec.getD j 0) = len
      · rw [if_pos hg]; simp only [hb, if_false]; exact ht
      · rw [if_neg hg]; exact ht

/-- No byte before its first index in a list equals the byte. -/
theorem getD_ne_of_lt_indexOf (b : Byte) : ∀ (l : List Byte) (i : Nat),
    i < l.indexOf b → l.getD i 0 ≠ b := by
  intro l
  induction l with
  | nil => intro i h; simp at h
  | cons a l ih =>
    intro i h
    by_cases hab : a = b
    · rw [List.indexOf_cons_eq _ hab] at h; omega
    · rw [List.indexOf_cons_ne _ hab] at h
      cases i with
      | zero => simpa using hab
      | succ i =>
        rw [List.getD_cons_succ]
        exact ih i (by omega)

/-- C16 (skip-table construction formula) at the pattern "ab": the last position
of `a` is 0 and the formula `n - j` gives 2, but the entry of `a` is 1; the last
position of `b` is 1 and the formula gives 1, but the entry of `b` is 2. -/
theorem jump_table_not_distance_from_end :
    (∃ j, j < 2 ∧ ([97, 98] : List Byte)[j]? = some 97 ∧
      (∀ i, i < 2 → j < i → ([97, 98] : List Byte)[i]? ≠ some 97) ∧
      generate_jump_table (compile_str [97, 98] nul_handling.DROP_NUL) 97 ≠ 2 - j) ∧
    generate_jump_table (compile_str [97, 98] nul_handling.DROP_NUL) 97 = 1 ∧
    generate_jump_table (compile_str [97, 98] nul_handling.DROP_NUL) 98 = 2 :=
  ⟨⟨0, by decide, by decide, by decide, by decide⟩, by decide, by decide⟩

/-- C16 as amended. For a byte vector whose `len` is the number of its bytes (at
least 1, as a position `j < len` exists) and a byte `b` whose first (leftmost)
position in the pattern is `j`, the table built by `generate_jump_table` has
`table[b] = j + 1`. -/
theorem jump_table_first_position (bv : bytevec) (hwf : bv.vec.length = bv.len)
    (b : Byte) (j : Nat) (hj : j < bv.len) (hb : bv.vec[j]? = some b)
    (hfirst : ∀ i, i < j → bv.vec[i]? ≠ some b) :
    generate_jump_table bv b = j + 1 := by
  have hjl : j < bv.vec.length := by omega
  have hf : bv.vec.getD j 0 = b := by
    rw [List.getD_eq_getElem?_getD, hb]; rfl
  apply jump_fill_first bv.len bv.vec b j hf bv.len 0 _ rfl (Nat.zero_le _) (by omega)
    (by omega)
  intro i _ hi e
  have hil : i < bv.vec.length := by omega
  apply hfirst i hi
  rw [List.getElem?_eq_getElem hil, ← e, List.getD_eq_getElem _ _ hil]

/-- C16 as amended, at the pattern "aba": the first position of `a` is 0 and its
entry is 1, although `a` occurs again at position 2. -/
theorem jump_table_first_position_witness :
    generate_jump_table (compile_str [97, 98, 97] nul_handling.DROP_NUL) 97 = 0 + 1 :=
  jump_table_first_position (compile_str [97, 98, 97] nul_handling.DROP_NUL) (by decide)
    97 0 (by decide) (by decide) (by decide)

/-- C18 (actual skip-table contents). For a byte vector whose `len` is the number
of its bytes (of any length, so also from 1 on) and every byte value `b`: the entry of `b` is `len`
when `b` does not occur in the pattern and `f + 1` when its first index is `f`;
and once the loop has passed `f`, after any number `k` of iterations up to `len`,
the entry is `f + 1` already, so that later occurrences do not change it. -/
theorem jump_table_contents (bv : bytevec) (hwf : bv.vec.length = bv.len) (b : Byte) :
    generate_jump_table bv b = (if b ∈ bv.vec then bv.vec.indexOf b + 1 else bv.len) ∧
    (b ∈ bv.vec → ∀ k, bv.vec.indexOf b < k → k ≤ bv.len →
      jump_fill bv.len bv.vec k 0 (fun _ => bv.len) b = bv.vec.indexOf b + 1) := by
  have hpart : b ∈ bv.vec → ∀ k, bv.vec.indexOf b < k → k ≤ bv.len →
      jump_fill bv.len bv.vec k 0 (fun _ => bv.len) b = bv.vec.indexOf b + 1 := by
    intro hmem k hk1 hk2
    have hlt : bv.vec.indexOf b < bv.vec.length := List.indexOf_lt_length.2 hmem
    have hf : bv.vec.getD (bv.vec.indexOf b) 0 = b := by
      rw [List.getD_eq_getElem _ _ hlt]
      exact List.getElem_indexOf hlt
    exact jump_fill_first bv.len bv.vec b _ hf k 0 _ rfl (Nat.zero_le _) (by omega) (by omega)
      (fun i _ hi => getD_ne_of_lt_indexOf b bv.vec i hi)
  refine ⟨?_, hpart⟩
  by_cases hmem : b ∈ bv.vec
  · rw [if_pos hmem]
    have hlt : bv.vec.indexOf b < bv.vec.length := List.indexOf_lt_length.2 hmem
    exact hpart hmem bv.len (by omega) (Nat.le_refl _)
  · rw [if_neg hmem]
    unfold generate_jump_table
    rw [jump_fill_absent bv.len bv.vec b bv.len 0 _ ?_]
    intro i _ hi e
    apply hmem
    have hil : i < bv.vec.length := by omega
    rw [List.getD_eq_getElem _ _ hil] at e
    rw [← e]
    exact List.getElem_mem _

/-- C18 at the pattern "aba": the entries of `a`, `b` and `x` are 1, 2 and 3, and
the entry of `a` is 1 after two iterations, before `a` is met again. -/
theorem jump_table_contents_witness :
    generate_jump_table (compile_str [97, 98, 97] nul_handling.DROP_NUL) 97 = 1 ∧
    generate_jump_table (compile_str [97, 98, 97] nul_handling.DROP_NUL) 98 = 2 ∧
    generate_jump_table (compile_str [97, 98, 97] nul_handling.DROP_NUL) 120 = 3 ∧
    jump_fill 3 [97, 98, 97] 2 0 (fun _ => 3) 97 = 0 + 1 :=
  ⟨(jump_table_contents (compile_str [97, 98, 97] nul_handling.DROP_NUL) (by decide)
      97).1,
    (jump_table_contents (compile_str [97, 98, 97] nul_handling.DROP_NUL) (by decide)
      98).1,
    (jump_table_contents (compile_str [97, 98, 97] nul_handling.DROP_NUL) (by decide)
      120).1,
    (jump_table_contents (compile_str [97, 98, 97] nul_handling.DROP_NUL) (by decide)
      97).2 (by decide) 2 (by decide) (by decide)⟩

/-! ## The scan loop: comparison, progress and bounds -/

/-- The comparison loop reads inside the pattern and inside the file when its
window lies inside both. -/
theorem crawl_compare_inside (vec src : List Byte) (base : Nat) : ∀ (k j : Nat),
    j + k ≤ vec.length → base + j + k ≤ src.length →
    crawl_compare vec src base k j ≠ Cmp.outside := by
  intro k
  induction k with
  | zero => intro j _ _ h; simp [crawl_compare] at h
  | succ k ih =>
    intro j h1 h2
    have hv : j < vec.length := by omega
    have hs : base + j < src.length := by omega
    simp only [crawl_compare, List.getElem?_eq_getElem hv, List.getElem?_eq_getElem hs]
    by_cases hne : vec[j] ≠ src[base + j]
    · rw [if_pos hne]; exact fun h => by cases h
    · rw [if_neg hne]; exact ih (j + 1) (by omega) (by omega)

/-- When the comparison loop runs to its end, every byte it walked was equal. -/
theorem crawl_compare_full (vec src : List Byte) (base : Nat) : ∀ (k j : Nat),
    crawl_compare vec src base k j = Cmp.full →
    ∀ i, j ≤ i → i < j + k → ∃ q, vec[i]? = some q ∧ src[base + i]? = some q := by
  intro k
  induction k with
  | zero => intro j _ i h1 h2; omega
  | succ k ih =>
    intro j h i h1 h2
    simp only [crawl_compare] at h
    cases hv : vec[j]? with
    | none => rw [hv] at h; cases h
    | some p =>
      cases hs : src[base + j]? with
      | none => rw [hv, hs] at h; cases h
      | some s =>
        simp only [hv, hs] at h
        by_cases hne : p ≠ s
        · rw [if_pos hne] at h
          cases h
        · rw [if_neg hne] at h
          have hps : p = s := by
            by_contra hc; exact hne hc
          by_cases hij : i = j
          · rw [hij]; exact ⟨p, hv, by rw [hs, hps]⟩
          · exact ih (j + 1) h i (by omega) (by omega)

/-- The comparison loop breaks at the first index at which pattern and window
differ, with the pattern byte there. -/
theorem crawl_compare_differ (vec src : List Byte) (base j : Nat) (p s : Byte)
    (hp : vec[j]? = some p) (hs : src[base + j]? = some s) (hne : p ≠ s) :
    ∀ (k j0 : Nat), j0 ≤ j → j < j0 + k →
    (∀ i, j0 ≤ i → i < j → ∃ q, vec[i]? = some q ∧ src[base + i]? = some q) →
    crawl_compare vec src base k j0 = Cmp.differ j p := by
  intro k
  induction k with
  | zero => intro j0 h1 h2; omega
  | succ k ih =>
    intro j0 h1 h2 heq
    by_cases hj : j0 = j
    · subst hj
      simp only [crawl_compare, hp, hs]
      rw [if_pos hne]
    · obtain ⟨q, hq1, hq2⟩ := heq j0 (Nat.le_refl _) (by omega)
      simp only [crawl_compare, hq1, hq2]
      rw [if_neg (by simp)]
      exact ih (j0 + 1) (by omega) (by omega) (fun i hi1 hi2 => heq i (by omega) hi2)

/-- The overlap of a byte vector with at least one byte exists and is at most
`len`; from two bytes on it is at least 1. -/
theorem overlap_bounds (bv : bytevec) (hwf : bv.vec.length = bv.len) (h1 : 1 ≤ bv.len)
    (h32 : bv.len < 2 ^ 32) :
    ∃ L, overlap bv = some L ∧ L ≤ bv.len ∧ (2 ≤ bv.len → 1 ≤ L) := by
  by_cases hone : bv.len = 1
  · exact ⟨0, by simp [overlap, hone], Nat.zero_le _, fun h => by omega⟩
  · have h2 : 2 ≤ bv.len := by omega
    have hspec := overlap_scan_spec bv.vec (bv.len - 1) 1 (by omega)
    rw [hwf] at hspec
    obtain ⟨s1, s2, _, _⟩ := hspec
    refine ⟨_, overlap_of_scan bv h2 h32 _ rfl s1 s2, ?_, fun _ => ?_⟩
    · by_cases hlt : overlap_scan bv.len bv.vec (bv.len - 1) 1 < bv.len
      · rw [if_pos hlt]; omega
      · rw [if_neg hlt]
    · by_cases hlt : overlap_scan bv.len bv.vec (bv.len - 1) 1 < bv.len
      · rw [if_pos hlt]; omega
      · rw [if_neg hlt]; omega

/-- `crawl` on a non-empty pattern and a non-empty file is its loop started at
the overlap. -/
theorem crawl_eq_loop (bv : bytevec) (src : List Byte) (h1 : 1 ≤ bv.len)
    (hsrc : 1 ≤ src.length) (L : Nat) (hL : overlap bv = some L) (fuel : Nat) :
    crawl fuel bv src = crawl_loop (generate_jump_table bv) bv.vec src L L fuel L [] := by
  unfold crawl
  rw [if_neg (by omega)]
  simp only [hL]

/-- The scan loop never faults, keeps its cursor at or above the comparison
length, and prints only offsets at which the compared bytes stand. -/
theorem crawl_loop_run_ok (jmptbl : Byte → Nat) (vec src : List Byte) (L mj : Nat)
    (hL : L ≤ vec.length) : ∀ (fuel off : Nat) (out : List Nat), L ≤ off →
    (∀ o ∈ out, emitted_ok vec src L o) →
    run_ok vec src L (crawl_loop jmptbl vec src L mj fuel off out) := by
  intro fuel
  induction fuel with
  | zero =>
    intro off out hoff hout
    by_cases hlt : off < src.length
    · simp only [crawl_loop, hlt, if_true, run_ok]
      exact ⟨hoff, trivial, hout⟩
    · simp only [crawl_loop, hlt, if_false, run_ok]
      exact hout
  | succ fuel ih =>
    intro off out hoff hout
    by_cases hlt : off < src.length
    · simp only [crawl_loop, hlt, if_true]
      cases hc : crawl_compare vec src (off - L) L 0 with
      | full =>
        simp only
        apply ih (off + mj) _ (by omega)
        intro o ho
        rcases List.mem_append.1 ho with h | h
        · exact hout o h
        · have ho' : o = off - L := by simpa using h
          subst ho'
          refine ⟨by omega, fun k hk => ?_⟩
          exact crawl_compare_full vec src (off - L) L 0 hc k (Nat.zero_le _) (by omega)
      | differ j p =>
        simp only
        exact ih (off + jmptbl p) out (by omega) hout
      | outside =>
        exact absurd hc (crawl_compare_inside vec src (off - L) L 0 (by omega) (by omega))
    · simp only [crawl_loop, hlt, if_false, run_ok]
      exact hout

/-- One iteration of the scan loop moves the cursor by at least 1 and at most
`n` when the table entries and the match jump lie in `[1, n]`. -/
theorem crawl_loop_step (jmptbl : Byte → Nat) (vec src : List Byte) (L mj n : Nat)
    (hL : L ≤ vec.length) (hj : ∀ p, 1 ≤ jmptbl p ∧ jmptbl p ≤ n) (hm : 1 ≤ mj ∧ mj ≤ n)
    (fuel off : Nat) (out : List Nat) (hoff : L ≤ off) (hlt : off < src.length) :
    ∃ off' out', off + 1 ≤ off' ∧ off' ≤ off + n ∧
      crawl_loop jmptbl vec src L mj (fuel + 1) off out
        = crawl_loop jmptbl vec src L mj fuel off' out' := by
  simp only [crawl_loop, hlt, if_true]
  cases hc : crawl_compare vec src (off - L) L 0 with
  | full => exact ⟨off + mj, out ++ [off - L], by omega, by omega, rfl⟩
  | differ j p =>
    have := hj p
    exact ⟨off + jmptbl p, out, by omega, by omega, rfl⟩
  | outside =>
    exact absurd hc (crawl_compare_inside vec src (off - L) L 0 (by omega) (by omega))

/-- The scan loop is left within `size - off` iterations when every table entry
and the match jump are at least 1. -/
theorem crawl_loop_ends (jmptbl : Byte → Nat) (vec src : List Byte) (L mj : Nat)
    (hL : L ≤ vec.length) (hj : ∀ p, 1 ≤ jmptbl p) (hm : 1 ≤ mj) :
    ∀ (fuel off : Nat) (out : List Nat), L ≤ off → src.length ≤ off + fuel →
    ∃ out', crawl_loop jmptbl vec src L mj fuel off out = Run.done out' := by
  intro fuel
  induction fuel with
  | zero =>
    intro off out _ h
    exact ⟨out, by simp only [crawl_loop]; rw [if_neg (by omega)]⟩
  | succ fuel ih =>
    intro off out hoff h
    by_cases hlt : off < src.length
    · simp only [crawl_loop, hlt, if_true]
      cases hc : crawl_compare vec src (off - L) L 0 with
      | full => exact ih (off + mj) _ (by omega) (by omega)
      | differ j p =>
        have := hj p
        exact ih (off + jmptbl p) _ (by omega) (by omega)
      | outside =>
        exact absurd hc (crawl_compare_inside vec src (off - L) L 0 (by omega) (by omega))
    · exact ⟨out, by simp only [crawl_loop]; rw [if_neg hlt]⟩

/-- When the comparison length is the whole pattern, an offset at which the
compared bytes stand is an occurrence of the pattern. -/
theorem occurs_of_emitted (vec src : List Byte) (o : Nat)
    (h : emitted_ok vec src vec.length o) : occurs_at vec src o := by
  obtain ⟨h1, h2⟩ := h
  refine ⟨by omega, List.ext_getElem? fun k => ?_⟩
  by_cases hk : k < vec.length
  · obtain ⟨q, hq1, hq2⟩ := h2 k hk
    rw [List.getElem?_take_of_lt hk, List.getElem?_drop, hq1, hq2]
  · rw [List.getElem?_take_eq_none (by omega), List.getElem?_eq_none (by omega)]

/-- The offsets of a run that is as `run_ok` says are as `emitted_ok` says. -/
theorem emitted_of_run_ok (vec src : List Byte) (L : Nat) (r : Run) (h : run_ok vec src L r) :
    ∀ o ∈ r.emitted, emitted_ok vec src L o := by
  cases r with
  | done out => exact h
  | fault => exact fun o ho => by simp [Run.emitted] at ho
  | running off out => exact h.2.2

/-! ## The scan loop: the claims -/

/-- C15 (skip lookup on mismatch) at the pattern "ab" and the file "aabxx". In
the first iteration `off = 2`, the comparison fails at window index 1, where
the pattern byte is `b` and the file byte is `a`; the entry of `a` is 1 and the
entry of `b` is 2, and the cursor goes to 4, not to 3. -/
theorem crawl_skip_not_by_source_byte :
    crawl_compare [97, 98] [97, 97, 98, 120, 120] (2 - 2) 2 0 = Cmp.differ 1 98 ∧
    ([97, 97, 98, 120, 120] : List Byte)[(2 - 2) + 1]? = some 97 ∧
    2 + generate_jump_table (compile_str [97, 98] nul_handling.DROP_NUL) 97 = 3 ∧
    2 + generate_jump_table (compile_str [97, 98] nul_handling.DROP_NUL) 98 = 4 ∧
    crawl 1 (compile_str [97, 98] nul_handling.DROP_NUL) [97, 97, 98, 120, 120]
      = Run.running 4 [] := by
  decide

/-- C15 as amended. In an iteration of the scan loop (so `off < size`) in which
the comparison first fails at window index `j`, where the pattern byte is `p`
and the file byte `source[(off - len) + j]` is another, the loop goes on with
`off` advanced by the table entry of the pattern byte `p = pattern[j]`, and
nothing is printed. -/
theorem crawl_mismatch_advance (jmptbl : Byte → Nat) (vec src : List Byte)
    (len mj fuel off : Nat) (out : List Nat) (j : Nat) (p s : Byte)
    (hoff : off < src.length) (hj : j < len) (hp : vec[j]? = some p)
    (hs : src[(off - len) + j]? = some s) (hne : p ≠ s)
    (heq : ∀ i, i < j → ∃ q, vec[i]? = some q ∧ src[(off - len) + i]? = some q) :
    crawl_loop jmptbl vec src len mj (fuel + 1) off out
      = crawl_loop jmptbl vec src len mj fuel (off + jmptbl p) out := by
  have hc := crawl_compare_differ vec src (off - len) j p s hp hs hne len 0 (Nat.zero_le _)
    (by omega) (fun i _ hi => heq i hi)
  simp only [crawl_loop, hoff, if_true, hc]

/-- C15 as amended, at the pattern "ab" and the file "aabxx": from `off = 2` the
loop goes on at `2 + table[b] = 4`. -/
theorem crawl_mismatch_advance_witness :
    crawl_loop (generate_jump_table (compile_str [97, 98] nul_handling.DROP_NUL)) [97, 98]
        [97, 97, 98, 120, 120] 2 2 (0 + 1) 2 []
      = crawl_loop (generate_jump_table (compile_str [97, 98] nul_handling.DROP_NUL)) [97, 98]
        [97, 97, 98, 120, 120] 2 2 0
        (2 + generate_jump_table (compile_str [97, 98] nul_handling.DROP_NUL) 98) [] :=
  crawl_mismatch_advance (generate_jump_table (compile_str [97, 98] nul_handling.DROP_NUL))
    [97, 98] [97, 97, 98, 120, 120] 2 2 0 2 [] 1 98 97 (by decide) (by decide) (by decide)
    (by decide) (by decide) (by decide)

/-- C17 (meaning of an emitted offset). For a byte vector whose `len` is the
number of its bytes, at least 1 and an `unsigned int`, and a non-empty file: with
`L` the overlap, every offset `o` printed by `crawl`, within any number of
iterations, has `o + L < size` and `source[o + k] = pattern[k]` for every
`k < L`; when `L` is the length of the pattern, `o` is an occurrence of the whole
pattern. With the self-overlapping pattern "aba" (`L = 1`) and the file "abx",
offset 0 is printed and is not an occurrence. -/
theorem crawl_emitted_meaning (bv : bytevec) (src : List Byte)
    (hwf : bv.vec.length = bv.len) (h1 : 1 ≤ bv.len) (h32 : bv.len < 2 ^ 32)
    (hsrc : 1 ≤ src.length) (fuel : Nat) :
    ∃ L, overlap bv = some L ∧
      (∀ o ∈ (crawl fuel bv src).emitted,
        o + L < src.length ∧
        (∀ k, k < L → ∃ q, bv.vec[k]? = some q ∧ src[o + k]? = some q) ∧
        (L = bv.len → occurs_at bv.vec src o)) ∧
      overlap (compile_str [97, 98, 97] nul_handling.DROP_NUL) = some 1 ∧
      (crawl 1 (compile_str [97, 98, 97] nul_handling.DROP_NUL) [97, 98, 120]).emitted = [0] ∧
      ¬ occurs_at [97, 98, 97] [97, 98, 120] 0 := by
  obtain ⟨L, hL, hLn, _⟩ := overlap_bounds bv hwf h1 h32
  refine ⟨L, hL, ?_, by decide, by decide, by decide⟩
  intro o ho
  rw [crawl_eq_loop bv src h1 hsrc L hL fuel] at ho
  have hok := emitted_of_run_ok bv.vec src L _
    (crawl_loop_run_ok (generate_jump_table bv) bv.vec src L L (by omega) fuel L []
      (Nat.le_refl _) (by simp)) o ho
  refine ⟨hok.1, hok.2, fun hfull => ?_⟩
  apply occurs_of_emitted
  rw [hwf, ← hfull]
  exact hok

/-- C17 at the pattern "abc" and the file "xxabcxxabcxx": the offsets 2 and 7
are printed, the overlap is the length 3, and both are occurrences. -/
theorem crawl_emitted_meaning_witness :
    (crawl 6 (compile_str [97, 98, 99] nul_handling.DROP_NUL)
      [120, 120, 97, 98, 99, 120, 120, 97, 98, 99, 120, 120]).emitted = [2, 7] ∧
    occurs_at [97, 98, 99] [120, 120, 97, 98, 99, 120, 120, 97, 98, 99, 120, 120] 2 ∧
    occurs_at [97, 98, 99] [120, 120, 97, 98, 99, 120, 120, 97, 98, 99, 120, 120] 7 := by
  obtain ⟨L, hL, h, _⟩ := crawl_emitted_meaning (compile_str [97, 98, 99] nul_handling.DROP_NUL)
    [120, 120, 97, 98, 99, 120, 120, 97, 98, 99, 120, 120] (by decide) (by decide) (by decide)
    (by decide) 6
  have hL3 : L = 3 := by
    have e : overlap (compile_str [97, 98, 99] nul_handling.DROP_NUL) = some 3 := by decide
    rw [e] at hL
    exact (Option.some.inj hL).symm
  have hem : (crawl 6 (compile_str [97, 98, 99] nul_handling.DROP_NUL)
      [120, 120, 97, 98, 99, 120, 120, 97, 98, 99, 120, 120]).emitted = [2, 7] := by decide
  refine ⟨hem, ?_, ?_⟩
  · exact (h 2 (by rw [hem]; simp)).2.2 hL3
  · exact (h 7 (by rw [hem]; simp)).2.2 hL3

/-- C19 (progress for multi-byte patterns). For a byte vector whose `len` is the
number `n` of its bytes, at least 2 and an `unsigned int`, and a non-empty file:
the overlap `L` lies in `[1, n]`; `crawl` is its loop started at `off = L`; from
every state of the loop with `L ≤ off < size` one iteration leads to a state whose
cursor is at least `off + 1` and at most `off + n`; and with `size` iterations
allowed the loop is left. -/
theorem crawl_progress (bv : bytevec) (src : List Byte) (hwf : bv.vec.length = bv.len)
    (h2 : 2 ≤ bv.len) (h32 : bv.len < 2 ^ 32) (hsrc : 1 ≤ src.length) :
    ∃ L, overlap bv = some L ∧ 1 ≤ L ∧ L ≤ bv.len ∧
      (∀ fuel, crawl fuel bv src
        = crawl_loop (generate_jump_table bv) bv.vec src L L fuel L []) ∧
      (∀ (fuel off : Nat) (out : List Nat), L ≤ off → off < src.length →
        ∃ off' out', off + 1 ≤ off' ∧ off' ≤ off + bv.len ∧
          crawl_loop (generate_jump_table bv) bv.vec src L L (fuel + 1) off out
            = crawl_loop (generate_jump_table bv) bv.vec src L L fuel off' out') ∧
      (∃ out, crawl src.length bv src = Run.done out) := by
  obtain ⟨L, hL, hLn, hL1⟩ := overlap_bounds bv hwf (by omega) h32
  have hL1 := hL1 h2
  have htbl := (jump_table_range bv hwf (by omega)).1
  refine ⟨L, hL, hL1, hLn, fun fuel => crawl_eq_loop bv src (by omega) hsrc L hL fuel, ?_, ?_⟩
  · intro fuel off out hoff hlt
    exact crawl_loop_step (generate_jump_table bv) bv.vec src L L bv.len (by omega) htbl
      ⟨hL1, hLn⟩ fuel off out hoff hlt
  · rw [crawl_eq_loop bv src (by omega) hsrc L hL]
    exact crawl_loop_ends (generate_jump_table bv) bv.vec src L L (by omega)
      (fun p => (htbl p).1) hL1 src.length L [] (Nat.le_refl _) (by omega)

/-- C19 at the pattern "ab" and the file "aabx": the loop is left within 4
iterations. -/
theorem crawl_progress_witness :
    ∃ out, crawl 4 (compile_str [97, 98] nul_handling.DROP_NUL) [97, 97, 98, 120]
      = Run.done out := by
  obtain ⟨L, _, _, _, _, _, h⟩ := crawl_progress (compile_str [97, 98] nul_handling.DROP_NUL)
    [97, 97, 98, 120] (by decide) (by decide) (by decide) (by decide)
  exact h

/-- C20 (in-bounds access during the scan). For a byte vector whose `len` is the
number of its bytes, at least 1 and an `unsigned int`, and a non-empty file: with
`L` the overlap, `L ≤ len`; no run of `crawl` ends in the fault branch (a failed
`assert` or a read outside the pattern bytes or the file); in every state in
which an iteration starts, `L ≤ off < size`, so that for `j < L` the file index
`(off - L) + j` is below `size` and the pattern index `j` is below the original
length; and a table index, being a byte, is below 256. -/
theorem crawl_in_bounds (bv : bytevec) (src : List Byte) (hwf : bv.vec.length = bv.len)
    (h1 : 1 ≤ bv.len) (h32 : bv.len < 2 ^ 32) (hsrc : 1 ≤ src.length) :
    ∃ L, overlap bv = some L ∧ L ≤ bv.len ∧
      (∀ fuel, crawl fuel bv src ≠ Run.fault) ∧
      (∀ (fuel off : Nat) (out : List Nat), crawl fuel bv src = Run.running off out →
        L ≤ off ∧ off < src.length ∧
        ∀ j, j < L → (off - L) + j < src.length ∧ j < bv.vec.length) ∧
      (∀ p : Byte, p.val < NUMBYTES) := by
  obtain ⟨L, hL, hLn, _⟩ := overlap_bounds bv hwf h1 h32
  have hok : ∀ fuel, run_ok bv.vec src L (crawl fuel bv src) := by
    intro fuel
    rw [crawl_eq_loop bv src h1 hsrc L hL fuel]
    exact crawl_loop_run_ok (generate_jump_table bv) bv.vec src L L (by omega) fuel L []
      (Nat.le_refl _) (by simp)
  refine ⟨L, hL, hLn, ?_, ?_, fun p => p.isLt⟩
  · intro fuel hf
    have h := hok fuel
    rw [hf] at h
    exact h
  · intro fuel off out hr
    have h := hok fuel
    rw [hr] at h
    obtain ⟨ha, hb, _⟩ := h
    exact ⟨ha, hb, fun j hj => ⟨by omega, by omega⟩⟩

/-- C20 at the pattern "aba" and the file "abxab": after one iteration the run is
going on at `off = 2`, above the overlap 1, and it is no fault. -/
theorem crawl_in_bounds_witness :
    crawl 1 (compile_str [97, 98, 97] nul_handling.DROP_NUL) [97, 98, 120, 97, 98]
      = Run.running 2 [0] ∧
    crawl 1 (compile_str [97, 98, 97] nul_handling.DROP_NUL) [97, 98, 120, 97, 98]
      ≠ Run.fault ∧
    (2 : Nat) < ([97, 98, 120, 97, 98] : List Byte).length := by
  obtain ⟨L, _, _, hnf, hrun, _⟩ := crawl_in_bounds
    (compile_str [97, 98, 97] nul_handling.DROP_NUL) [97, 98, 120, 97, 98] (by decide)
    (by decide) (by decide) (by decide)
  have hr : crawl 1 (compile_str [97, 98, 97] nul_handling.DROP_NUL) [97, 98, 120, 97, 98]
      = Run.running 2 [0] := by decide
  exact ⟨hr, hnf 1, (hrun 1 2 [0] hr).2.1⟩

end Binscout
